import Mathlib

/-!
Verification of the `TinyDAG` dependency-graph walker
(`openstack/utils.py`, class `TinyDAG`).

The Python object state is embedded as `DagState`; each method becomes a
Lean function on `DagState`.  Python dicts become insertion-ordered
association lists, Python sets become duplicate-free lists in insertion
order, a `KeyError` becomes a `some "KeyError"` error component, and the
blocking `queue.get(timeout=...)` is abstracted to its two deterministic
outcomes: an item is available (return it) or the queue is empty at the
step and the wait can only elapse (timeout).  In-degree counters are `Int`,
as Python ints may go negative under repeated `node_done` calls.
-/

set_option autoImplicit false

namespace TinyDAG

/-- Association-list lookup: Python `d[key]`, with `none` for the `KeyError` case. -/
def alookup {α : Type} : List (String × α) → String → Option α
  | [], _ => none
  | (k, a) :: rest, key => if k = key then some a else alookup rest key

/-- Python `d.setdefault(key, dflt)`: append the binding only when the key is absent. -/
def asetdefault {α : Type} : List (String × α) → String → α → List (String × α)
  | [], key, dflt => [(key, dflt)]
  | (k, a) :: rest, key, dflt =>
    if k = key then (k, a) :: rest else (k, a) :: asetdefault rest key dflt

/-- Python `d[key] = f(d[key])` on an existing key; `none` models the `KeyError`
on a missing key. -/
def aadjust {α : Type} : List (String × α) → String → (α → α) → Option (List (String × α))
  | [], _, _ => none
  | (k, a) :: rest, key, f =>
    if k = key then some ((k, f a) :: rest)
    else (aadjust rest key f).map (fun r => (k, a) :: r)

/-- Python `set.add` on a set represented as a duplicate-free list in insertion order. -/
def saddElem (l : List String) (x : String) : List String :=
  if x ∈ l then l else l ++ [x]

/-- The key list of an association list (Python `dict.keys()`, insertion order). -/
def keys {α : Type} (g : List (String × α)) : List String := g.map Prod.fst

/-- The mutable attributes of a `TinyDAG` object: the adjacency dict `_graph`
and the per-walk state installed by `_start_traverse` (`_run_in_degree`,
`_queue`, `_done`, `_it_cnt`).  Before the first walk the per-walk attributes
do not exist in Python; they are defaulted to empty here. -/
structure DagState where
  graph : List (String × List String)
  run_in_degree : List (String × Int)
  queue : List String
  done : List String
  it_cnt : Nat
deriving Repr, DecidableEq

/-- A freshly constructed `TinyDAG()` (after `_reset`). -/
def initDag : DagState := ⟨[], [], [], [], 0⟩

/-- Python `TinyDAG.add_node`: `self._graph.setdefault(node, set())`. -/
def add_node (s : DagState) (node : String) : DagState :=
  { s with graph := asetdefault s.graph node [] }

/-- Python `TinyDAG.add_edge`: `self._graph[u].add(v)`.  A missing `u` raises
`KeyError`; `v` is only added to `u`'s successor set, never created as a node. -/
def add_edge (s : DagState) (u v : String) : DagState × Option String :=
  match aadjust s.graph u (fun vs => saddElem vs v) with
  | some g => ({ s with graph := g }, none)
  | none => (s, some "KeyError")

/-- The inner loop of `from_dict`: `for dep in v: self.add_edge(k, dep)`. -/
def addEdges (s : DagState) (k : String) : List String → DagState × Option String
  | [] => (s, none)
  | d :: rest =>
    match add_edge s k d with
    | (s1, none) => addEdges s1 k rest
    | (s1, some e) => (s1, some e)

/-- The outer loop of `from_dict`. -/
def fromDictLoop (s : DagState) : List (String × List String) → DagState × Option String
  | [] => (s, none)
  | (k, vs) :: rest =>
    match addEdges (add_node s k) k vs with
    | (s1, none) => fromDictLoop s1 rest
    | (s1, some e) => (s1, some e)

/-- Python `TinyDAG.from_dict`: `self._reset()` (graph cleared) then `add_node` +
`add_edge` for every declared pair. -/
def from_dict (s : DagState) (data : List (String × List String)) : DagState × Option String :=
  fromDictLoop { s with graph := [] } data

/-- One pass of `_in_degree[v] += 1` over a successor list; `none` is the
`KeyError` on a successor that is not a graph key. -/
def incDegrees (d : List (String × Int)) : List String → Option (List (String × Int))
  | [] => some d
  | v :: rest =>
    match aadjust d v (fun n => n + 1) with
    | some d1 => incDegrees d1 rest
    | none => none

/-- The outer loop of `_get_in_degree`. -/
def inDegLoop (d : List (String × Int)) : List (String × List String) → Option (List (String × Int))
  | [] => some d
  | (_, vs) :: rest =>
    match incDegrees d vs with
    | some d1 => inDegLoop d1 rest
    | none => none

/-- Python `TinyDAG._get_in_degree`: start every graph key at 0, then add one per
incoming edge.  `none` models the `KeyError` hit when an edge target is not a
graph key. -/
def get_in_degree (s : DagState) : Option (List (String × Int)) :=
  inDegLoop (s.graph.map (fun p => (p.1, (0 : Int)))) s.graph

/-- The seeding loop of `_start_traverse`: enqueue every key whose in-degree
is zero, in table order. -/
def seedQueue : List (String × Int) → List String
  | [] => []
  | (k, v) :: rest => if v = 0 then k :: seedQueue rest else seedQueue rest

/-- Python `TinyDAG._start_traverse`: compute the in-degree table, fresh queue,
empty done set, `_it_cnt = len(self._graph)`, then seed the queue.  If
`_get_in_degree` raises, no attribute is (re)assigned. -/
def start_traverse (s : DagState) : DagState × Option String :=
  match get_in_degree s with
  | none => (s, some "KeyError")
  | some d =>
    ({ s with run_in_degree := d, queue := seedQueue d, done := [],
              it_cnt := s.graph.length }, none)

/-- The outcome of one `__next__` call. -/
inductive StepOut where
  | yielded (node : String)
  | timeout
  | stop
deriving Repr, DecidableEq

/-- Python `TinyDAG.__next__`: when `_it_cnt > 0` it is decremented and the queue is
polled — an available item is returned, an empty queue means the timed wait
elapses (`SDKException`).  When `_it_cnt = 0`, `StopIteration`. -/
def dagNext (s : DagState) : DagState × StepOut :=
  if s.it_cnt > 0 then
    let s1 := { s with it_cnt := s.it_cnt - 1 }
    match s1.queue with
    | n :: rest => ({ s1 with queue := rest }, .yielded n)
    | [] => (s1, .timeout)
  else (s, .stop)

/-- The loop of `node_done`: for each successor `v`, `_run_in_degree[v] -= 1`
and enqueue `v` when the stored value has become 0. -/
def doneLoop (s : DagState) : List String → DagState × Option String
  | [] => (s, none)
  | v :: rest =>
    match aadjust s.run_in_degree v (fun n => n - 1) with
    | none => (s, some "KeyError")
    | some d =>
      let s1 := { s with run_in_degree := d }
      let s2 := if alookup d v = some 0 then { s1 with queue := s1.queue ++ [v] } else s1
      doneLoop s2 rest

/-- Python `TinyDAG.node_done`: add the node to `_done`, then decrement each direct
successor's in-degree, enqueueing those that reach 0.  `self._graph[node]`
raises `KeyError` for an unknown node (after `_done` was already mutated). -/
def node_done (s : DagState) (node : String) : DagState × Option String :=
  let s0 := { s with done := saddElem s.done node }
  match alookup s0.graph node with
  | none => (s0, some "KeyError")
  | some vs => doneLoop s0 vs

/-- The `for node in self` loop of `topological_sort`, with explicit fuel for
structural recursion.  Each pass through the loop body decrements `_it_cnt`,
so fuel `_it_cnt + 1` is exact; the fuel-exhaustion branch is unreachable at
that fuel. -/
def sortLoop : Nat → DagState → List String → DagState × List String × Option String
  | 0, s, acc => (s, acc, some "out of fuel")
  | fuel + 1, s, acc =>
    match dagNext s with
    | (s1, .stop) => (s1, acc, none)
    | (s1, .timeout) => (s1, acc, some "Timeout waiting for cleanup task to complete")
    | (s1, .yielded n) =>
      match node_done s1 n with
      | (s2, none) => sortLoop fuel s2 (acc ++ [n])
      | (s2, some e) => (s2, acc ++ [n], some e)

/-- Python `TinyDAG.topological_sort`: `__iter__` (i.e. `_start_traverse`), then
yield-append-`node_done` until `StopIteration`.  The error component carries
any `KeyError`/timeout raised during the walk. -/
def topological_sort (s : DagState) : DagState × List String × Option String :=
  match start_traverse s with
  | (s1, none) => sortLoop (s1.it_cnt + 1) s1 []
  | (s1, some e) => (s1, [], some e)

/-- One external call on a walking `TinyDAG`: a `__next__` pull by the
dispatcher, or a `node_done` report by a worker. -/
inductive Op where
  | step
  | done (node : String)

/-- Run a sequence of calls against the object, collecting the yielded nodes. -/
def runTrace (s : DagState) : List Op → DagState × List String
  | [] => (s, [])
  | Op.step :: rest =>
    match dagNext s with
    | (s1, .yielded n) => ((runTrace s1 rest).1, n :: (runTrace s1 rest).2)
    | (s1, _) => runTrace s1 rest
  | Op.done n :: rest => runTrace (node_done s n).1 rest

/-- Total number of edges into `w`: the sum over all adjacency entries of the
occurrences of `w` in the successor list. -/
def gcount (g : List (String × List String)) (w : String) : Nat :=
  (g.map (fun p => p.2.count w)).sum

/-- Number of adjacency entries with an edge into `v` whose source is not yet
in the processed prefix `acc`: the remaining in-degree of `v`. -/
def remCnt (g : List (String × List String)) (acc : List String) (v : String) : Nat :=
  g.countP (fun p => decide (v ∈ p.2 ∧ p.1 ∉ acc))

/-- Every predecessor of a node in the processed prefix appears strictly
earlier in the prefix. -/
def topoOK (g : List (String × List String)) (acc : List String) : Prop :=
  ∀ u vs, (u, vs) ∈ g → ∀ v ∈ vs, v ∈ acc → ∃ a1 a2, acc = a1 ++ v :: a2 ∧ u ∈ a1

/-- The loop invariant of Kahn's algorithm as realized by
`_start_traverse` / `__next__` / `node_done`: `acc` is the processed prefix. -/
structure KahnInv (g : List (String × List String)) (s : DagState)
    (acc : List String) : Prop where
  graph_eq : s.graph = g
  itcnt : s.it_cnt + acc.length = g.length
  keys_deg : keys s.run_in_degree = keys g
  acc_sub : ∀ n ∈ acc, n ∈ keys g
  acc_nodup : acc.Nodup
  q_sub : ∀ n ∈ s.queue, n ∈ keys g
  q_nodup : s.queue.Nodup
  q_disj : ∀ n ∈ s.queue, n ∉ acc
  deg : ∀ v ∈ keys g, alookup s.run_in_degree v = some (remCnt g acc v : Int)
  zero_iff : ∀ v ∈ keys g, (remCnt g acc v = 0 ↔ (v ∈ acc ∨ v ∈ s.queue))
  topo : topoOK g acc

/-- Invariant over a walking `TinyDAG`, where `Y` is the multiset of nodes
yielded so far: a node sits in the ready queue or among the yields at most
once in total, and once it does, its stored in-degree has dropped to 0 or
below, so it can never pass through 0 (and be enqueued) again. -/
structure TraceInv (s : DagState) (Y : List String) : Prop where
  degKeys : keys s.run_in_degree = keys s.graph
  qKeys : ∀ v ∈ s.queue, v ∈ keys s.graph
  yKeys : ∀ v ∈ Y, v ∈ keys s.graph
  once : ∀ v, s.queue.count v + Y.count v ≤ 1
  negOnce : ∀ v i, s.queue.count v + Y.count v = 1 →
    alookup s.run_in_degree v = some i → i ≤ 0

/-- Strict ordering: `u` occurs strictly before `v` in the list. -/
def listBefore (l : List String) (u v : String) : Prop :=
  ∃ l1 l2 l3, l = l1 ++ u :: (l2 ++ v :: l3)

/-- The adjacency mapping of the spec's concrete scenario. -/
def demoGraph : List (String × List String) :=
  [("a", ["b", "d", "f"]), ("b", ["c", "d"]), ("c", ["d"]), ("d", ["e"]), ("e", []), ("f", ["e"])]

/-! ### Association-list lemmas -/

@[simp]
theorem keys_nil {α : Type} : keys ([] : List (String × α)) = [] := rfl

@[simp]
theorem keys_cons {α : Type} (p : String × α) (g : List (String × α)) :
    keys (p :: g) = p.1 :: keys g := rfl

@[simp]
theorem keys_append {α : Type} (g1 g2 : List (String × α)) :
    keys (g1 ++ g2) = keys g1 ++ keys g2 := by
  simp [keys]

theorem alookup_eq_none {α : Type} (g : List (String × α)) (k : String) :
    alookup g k = none ↔ k ∉ keys g := by
  induction g with
  | nil => simp [alookup]
  | cons p rest ih =>
    by_cases h : p.1 = k
    · simp [alookup, h]
    · simp [alookup, h, ih, Ne.symm h]

theorem alookup_isSome_iff {α : Type} (g : List (String × α)) (k : String) :
    (alookup g k).isSome ↔ k ∈ keys g := by
  cases hres : alookup g k with
  | none => simp [(alookup_eq_none g k).mp hres]
  | some a =>
    have hk : k ∈ keys g := by
      by_contra hk
      rw [(alookup_eq_none g k).mpr hk] at hres
      exact Option.noConfusion hres
    simp [hk]

theorem alookup_mem {α : Type} (g : List (String × α)) (k : String) (a : α)
    (h : alookup g k = some a) : (k, a) ∈ g := by
  induction g with
  | nil => simp [alookup] at h
  | cons p rest ih =>
    obtain ⟨k', b⟩ := p
    by_cases hk : k' = k
    · subst hk
      simp only [alookup, if_pos] at h
      cases h
      exact List.mem_cons_self _ _
    · simp only [alookup, hk, ite_false] at h
      exact List.mem_cons_of_mem _ (ih h)

theorem alookup_of_mem_nodup {α : Type} (g : List (String × α)) (k : String) (a : α)
    (hnd : (keys g).Nodup) (hmem : (k, a) ∈ g) : alookup g k = some a := by
  induction g with
  | nil => simp at hmem
  | cons p rest ih =>
    simp only [keys_cons, List.nodup_cons] at hnd
    rcases List.mem_cons.mp hmem with h | h
    · subst h
      simp [alookup]
    · have hk : p.1 ≠ k := by
        intro he
        exact hnd.1 (he ▸ (by simpa [keys] using List.mem_map_of_mem Prod.fst h))
      simp [alookup, hk, ih hnd.2 h]

theorem asetdefault_of_mem {α : Type} (g : List (String × α)) (k : String) (d : α)
    (h : k ∈ keys g) : asetdefault g k d = g := by
  induction g with
  | nil => simp at h
  | cons p rest ih =>
    obtain ⟨k', b⟩ := p
    by_cases hk : k' = k
    · subst hk
      simp [asetdefault]
    · simp only [keys_cons, List.mem_cons] at h
      rcases h with h | h
      · exact absurd h.symm hk
      · simp [asetdefault, hk, ih h]

theorem asetdefault_of_not_mem {α : Type} (g : List (String × α)) (k : String) (d : α)
    (h : k ∉ keys g) : asetdefault g k d = g ++ [(k, d)] := by
  induction g with
  | nil => simp [asetdefault]
  | cons p rest ih =>
    simp only [keys_cons, List.mem_cons, not_or] at h
    simp [asetdefault, Ne.symm h.1, ih h.2]

theorem aadjust_eq_none {α : Type} (g : List (String × α)) (k : String) (f : α → α) :
    aadjust g k f = none ↔ k ∉ keys g := by
  induction g with
  | nil => simp [aadjust]
  | cons p rest ih =>
    by_cases h : p.1 = k
    · simp [aadjust, h]
    · cases hres : aadjust rest k f with
      | none => simp [aadjust, h, hres, Ne.symm h, ih.mp hres]
      | some r =>
        have := ih.not.mp (by simp [hres])
        simp [aadjust, h, hres, Ne.symm h]
        simpa using this

theorem aadjust_some_of_mem {α : Type} (g : List (String × α)) (k : String) (f : α → α)
    (h : k ∈ keys g) : ∃ g', aadjust g k f = some g' := by
  cases hres : aadjust g k f with
  | none => exact absurd ((aadjust_eq_none g k f).mp hres) (by simp [h])
  | some r => exact ⟨r, rfl⟩

theorem aadjust_keys {α : Type} {g g' : List (String × α)} {k : String} {f : α → α}
    (h : aadjust g k f = some g') : keys g' = keys g := by
  induction g generalizing g' with
  | nil => simp [aadjust] at h
  | cons p rest ih =>
    obtain ⟨k', b⟩ := p
    by_cases hk : k' = k
    · subst hk
      simp only [aadjust, if_pos] at h
      cases h
      simp
    · simp only [aadjust, hk, ite_false, Option.map_eq_some'] at h
      obtain ⟨r, hr, hre⟩ := h
      cases hre
      simp [ih hr]

theorem alookup_aadjust_self {α : Type} {g g' : List (String × α)} {k : String} {f : α → α}
    (h : aadjust g k f = some g') : alookup g' k = (alookup g k).map f := by
  induction g generalizing g' with
  | nil => simp [aadjust] at h
  | cons p rest ih =>
    by_cases hk : p.1 = k
    · simp only [aadjust, hk, if_pos] at h
      cases h
      simp [alookup, hk]
    · simp only [aadjust, hk, ite_false, Option.map_eq_some'] at h
      obtain ⟨r, hr, hre⟩ := h
      cases hre
      simp [alookup, hk, ih hr]

theorem alookup_aadjust_ne {α : Type} {g g' : List (String × α)} {k : String} {f : α → α}
    (h : aadjust g k f = some g') (w : String) (hw : w ≠ k) :
    alookup g' w = alookup g w := by
  induction g generalizing g' with
  | nil => simp [aadjust] at h
  | cons p rest ih =>
    by_cases hk : p.1 = k
    · simp only [aadjust, hk, if_pos] at h
      cases h
      simp [alookup, hk, Ne.symm hw]
    · simp only [aadjust, hk, ite_false, Option.map_eq_some'] at h
      obtain ⟨r, hr, hre⟩ := h
      cases hre
      by_cases hw2 : p.1 = w
      · simp [alookup, hw2]
      · simp [alookup, hw2, ih hr]

theorem aadjust_append_left {α : Type} (g0 l : List (String × α)) (k : String) (f : α → α)
    (h : k ∉ keys g0) :
    aadjust (g0 ++ l) k f = (aadjust l k f).map (fun r => g0 ++ r) := by
  induction g0 with
  | nil => simp
  | cons p rest ih =>
    obtain ⟨k', b⟩ := p
    simp only [keys_cons, List.mem_cons, not_or] at h
    rw [List.cons_append]
    show (if k' = k then _ else (aadjust (rest ++ l) k f).map _) = _
    rw [if_neg (Ne.symm h.1), ih h.2]
    cases aadjust l k f <;> simp

theorem aadjust_fix {α : Type} (g : List (String × α)) (k : String) (f : α → α) (a : α)
    (hl : alookup g k = some a) (hf : f a = a) : aadjust g k f = some g := by
  induction g with
  | nil => simp [alookup] at hl
  | cons p rest ih =>
    obtain ⟨k', b⟩ := p
    by_cases hk : k' = k
    · subst hk
      simp only [alookup, if_pos] at hl
      cases hl
      simp [aadjust, hf]
    · simp only [alookup, hk, ite_false] at hl
      simp [aadjust, hk, ih hl]

@[simp]
theorem mem_saddElem (l : List String) (x y : String) :
    y ∈ saddElem l x ↔ y ∈ l ∨ y = x := by
  unfold saddElem
  split <;> rename_i h
  · constructor
    · exact Or.inl
    · rintro (hy | rfl)
      · exact hy
      · exact h
  · simp

theorem saddElem_of_mem (l : List String) (x : String) (h : x ∈ l) : saddElem l x = l := by
  simp [saddElem, h]

theorem saddElem_nodup (l : List String) (x : String) (h : l.Nodup) :
    (saddElem l x).Nodup := by
  unfold saddElem
  split <;> rename_i hx
  · exact h
  · simpa [List.nodup_append] using ⟨h, fun hmem => hx hmem⟩

/-! ### Which fields each operation touches -/

theorem doneLoop_fields (s : DagState) (vs : List String) :
    (doneLoop s vs).1.graph = s.graph ∧ (doneLoop s vs).1.done = s.done ∧
    (doneLoop s vs).1.it_cnt = s.it_cnt := by
  induction vs generalizing s with
  | nil => simp [doneLoop]
  | cons v rest ih =>
    simp only [doneLoop]
    cases aadjust s.run_in_degree v (fun n => n - 1) with
    | none => simp
    | some d =>
      simp only
      split <;> exact ih _

theorem node_done_fields (s : DagState) (n : String) :
    (node_done s n).1.graph = s.graph ∧ (node_done s n).1.it_cnt = s.it_cnt ∧
    (node_done s n).1.done = saddElem s.done n := by
  simp only [node_done]
  cases alookup s.graph n with
  | none => simp
  | some vs =>
    simp only
    have h := doneLoop_fields { s with done := saddElem s.done n } vs
    exact ⟨h.1, h.2.2, h.2.1⟩

theorem start_traverse_graph (s : DagState) : (start_traverse s).1.graph = s.graph := by
  unfold start_traverse
  cases get_in_degree s <;> simp

/-! ### `__next__` characterization -/

theorem dagNext_stop (s : DagState) (h : s.it_cnt = 0) : dagNext s = (s, .stop) := by
  simp [dagNext, h]

theorem dagNext_empty (s : DagState) (h : 0 < s.it_cnt) (hq : s.queue = []) :
    dagNext s = ({ s with it_cnt := s.it_cnt - 1 }, .timeout) := by
  simp [dagNext, h, hq]

theorem dagNext_yield (s : DagState) (n : String) (rest : List String) (h : 0 < s.it_cnt)
    (hq : s.queue = n :: rest) :
    dagNext s = ({ s with it_cnt := s.it_cnt - 1, queue := rest }, .yielded n) := by
  simp [dagNext, h, hq]

theorem dagNext_graph (s : DagState) :
    (dagNext s).1.graph = s.graph ∧ (dagNext s).1.run_in_degree = s.run_in_degree ∧
    (dagNext s).1.done = s.done := by
  rcases Nat.eq_zero_or_pos s.it_cnt with h | h
  · rw [dagNext_stop s h]
    simp
  · cases hq : s.queue with
    | nil =>
      rw [dagNext_empty s h hq]
      simp
    | cons n q =>
      rw [dagNext_yield s n q h hq]
      simp

theorem sortLoop_graph (fuel : Nat) (s : DagState) (acc : List String) :
    (sortLoop fuel s acc).1.graph = s.graph := by
  induction fuel generalizing s acc with
  | zero => simp [sortLoop]
  | succ f ih =>
    simp only [sortLoop]
    rcases Nat.eq_zero_or_pos s.it_cnt with h | h
    · rw [dagNext_stop s h]
    · cases hq : s.queue with
      | nil => rw [dagNext_empty s h hq]
      | cons n rest =>
        rw [dagNext_yield s n rest h hq]
        simp only
        cases hnd : node_done { s with it_cnt := s.it_cnt - 1, queue := rest } n with
        | mk s2 e =>
          have h2 : s2.graph = s.graph := by
            have := (node_done_fields { s with it_cnt := s.it_cnt - 1, queue := rest } n).1
            rw [hnd] at this
            exact this
          cases e with
          | none => simpa [ih] using h2
          | some msg => simpa using h2

theorem topological_sort_graph (s : DagState) : (topological_sort s).1.graph = s.graph := by
  unfold topological_sort
  cases hst : start_traverse s with
  | mk s1 e =>
    have h1 : s1.graph = s.graph := by
      have := start_traverse_graph s
      rw [hst] at this
      exact this
    cases e with
    | none => simpa [sortLoop_graph] using h1
    | some msg => simpa using h1

theorem runTrace_graph (s : DagState) (t : List Op) : (runTrace s t).1.graph = s.graph := by
  induction t generalizing s with
  | nil => simp [runTrace]
  | cons op rest ih =>
    cases op with
    | done n =>
      simp only [runTrace]
      rw [ih, (node_done_fields s n).1]
    | step =>
      simp only [runTrace]
      rcases Nat.eq_zero_or_pos s.it_cnt with h | h
      · rw [dagNext_stop s h]
        exact ih s
      · cases hq : s.queue with
        | nil =>
          rw [dagNext_empty s h hq]
          exact ih _
        | cons n q =>
          rw [dagNext_yield s n q h hq]
          exact ih _

theorem runTrace_length (s : DagState) (t : List Op) :
    (runTrace s t).2.length + (runTrace s t).1.it_cnt ≤ s.it_cnt := by
  induction t generalizing s with
  | nil => simp [runTrace]
  | cons op rest ih =>
    cases op with
    | done n =>
      simp only [runTrace]
      have he := (node_done_fields s n).2.1
      calc (runTrace (node_done s n).1 rest).2.length +
            (runTrace (node_done s n).1 rest).1.it_cnt
          ≤ (node_done s n).1.it_cnt := ih _
        _ = s.it_cnt := he
    | step =>
      simp only [runTrace]
      rcases Nat.eq_zero_or_pos s.it_cnt with h | h
      · rw [dagNext_stop s h]
        exact ih s
      · cases hq : s.queue with
        | nil =>
          rw [dagNext_empty s h hq]
          have hle := ih { s with it_cnt := s.it_cnt - 1 }
          have hcnt : ({ s with it_cnt := s.it_cnt - 1 } : DagState).it_cnt = s.it_cnt - 1 := rfl
          rw [hcnt] at hle
          show (runTrace { s with it_cnt := s.it_cnt - 1 } rest).2.length +
              (runTrace { s with it_cnt := s.it_cnt - 1 } rest).1.it_cnt ≤ s.it_cnt
          omega
        | cons n q =>
          rw [dagNext_yield s n q h hq]
          have hle := ih { s with it_cnt := s.it_cnt - 1, queue := q }
          have hcnt : ({ s with it_cnt := s.it_cnt - 1, queue := q } : DagState).it_cnt
              = s.it_cnt - 1 := rfl
          rw [hcnt] at hle
          show (n :: (runTrace { s with it_cnt := s.it_cnt - 1, queue := q } rest).2).length +
              (runTrace { s with it_cnt := s.it_cnt - 1, queue := q } rest).1.it_cnt ≤ s.it_cnt
          rw [List.length_cons]
          omega

/-! ### `add_node` / `add_edge` specifications -/

theorem add_node_of_mem (s : DagState) (n : String) (h : n ∈ keys s.graph) :
    add_node s n = s := by
  unfold add_node
  rw [asetdefault_of_mem _ _ _ h]

theorem add_node_of_not_mem (s : DagState) (n : String) (h : n ∉ keys s.graph) :
    add_node s n = { s with graph := s.graph ++ [(n, [])] } := by
  unfold add_node
  rw [asetdefault_of_not_mem _ _ _ h]

theorem add_edge_of_not_mem (s : DagState) (u v : String) (h : u ∉ keys s.graph) :
    add_edge s u v = (s, some "KeyError") := by
  unfold add_edge
  rw [(aadjust_eq_none _ _ _).mpr h]

theorem add_edge_of_mem (s : DagState) (u v : String) (h : u ∈ keys s.graph) :
    ∃ g', add_edge s u v = ({ s with graph := g' }, none) ∧ keys g' = keys s.graph ∧
      alookup g' u = (alookup s.graph u).map (fun vs => saddElem vs v) ∧
      ∀ w, w ≠ u → alookup g' w = alookup s.graph w := by
  obtain ⟨g', hg⟩ := aadjust_some_of_mem s.graph u (fun vs => saddElem vs v) h
  refine ⟨g', ?_, aadjust_keys hg, alookup_aadjust_self hg,
    fun w hw => alookup_aadjust_ne hg w hw⟩
  unfold add_edge
  rw [hg]

theorem add_edge_of_mem_succ (s : DagState) (u v : String) (vs : List String)
    (hl : alookup s.graph u = some vs) (hv : v ∈ vs) :
    add_edge s u v = (s, none) := by
  unfold add_edge
  rw [aadjust_fix s.graph u _ vs hl (saddElem_of_mem vs v hv)]

/-! ### `from_dict` specification -/

theorem mem_foldl_saddElem (vs : List String) (acc : List String) (x : String) :
    x ∈ vs.foldl saddElem acc ↔ x ∈ acc ∨ x ∈ vs := by
  induction vs generalizing acc with
  | nil => simp
  | cons d rest ih =>
    rw [List.foldl_cons, ih]
    simp only [mem_saddElem, List.mem_cons]
    tauto

theorem foldl_saddElem_nodup (vs : List String) (acc : List String) (h : acc.Nodup) :
    (vs.foldl saddElem acc).Nodup := by
  induction vs generalizing acc with
  | nil => exact h
  | cons d rest ih => exact ih _ (saddElem_nodup _ _ h)

theorem addEdges_spec (k : String) (vs : List String) (s : DagState)
    (g0 : List (String × List String)) (acc : List String)
    (hg : s.graph = g0 ++ [(k, acc)]) (hk : k ∉ keys g0) :
    addEdges s k vs = ({ s with graph := g0 ++ [(k, vs.foldl saddElem acc)] }, none) := by
  induction vs generalizing s acc with
  | nil =>
    simp only [addEdges, List.foldl_nil]
    rw [← hg]
  | cons d rest ih =>
    have hadj : aadjust s.graph k (fun l => saddElem l d) =
        some (g0 ++ [(k, saddElem acc d)]) := by
      rw [hg, aadjust_append_left g0 [(k, acc)] k _ hk]
      simp [aadjust]
    simp only [addEdges, add_edge, hadj, List.foldl_cons]
    exact ih _ _ rfl

theorem fromDictLoop_spec (data : List (String × List String)) (s : DagState)
    (hnd : (keys data).Nodup) (hdisj : ∀ x ∈ keys data, x ∉ keys s.graph) :
    fromDictLoop s data =
      ({ s with graph := s.graph ++ data.map (fun p => (p.1, p.2.foldl saddElem [])) }, none) := by
  induction data generalizing s with
  | nil =>
    simp only [fromDictLoop, List.map_nil, List.append_nil]
  | cons p rest ih =>
    obtain ⟨k, vs⟩ := p
    have hk : k ∉ keys s.graph := hdisj k (by simp)
    have hstep : addEdges (add_node s k) k vs =
        ({ s with graph := s.graph ++ [(k, vs.foldl saddElem [])] }, none) := by
      rw [add_node_of_not_mem s k hk]
      exact addEdges_spec k vs _ s.graph [] rfl hk
    simp only [fromDictLoop, hstep]
    simp only [keys_cons, List.nodup_cons] at hnd
    rw [ih _ hnd.2 ?_]
    · simp
    · intro x hx
      simp only [keys_append, List.mem_append]
      rintro (h | h)
      · exact hdisj x (by simp [hx]) h
      · simp only [keys_cons, keys_nil, List.mem_singleton] at h
        exact hnd.1 (h ▸ hx)

theorem from_dict_spec (s : DagState) (data : List (String × List String))
    (hnd : (keys data).Nodup) :
    from_dict s data =
      ({ s with graph := data.map (fun p => (p.1, p.2.foldl saddElem [])) }, none) := by
  unfold from_dict
  rw [fromDictLoop_spec data _ hnd (by simp [keys])]
  simp

theorem keys_map_graph (data : List (String × List String)) :
    keys (data.map (fun p => (p.1, p.2.foldl saddElem []))) = keys data := by
  simp [keys, Function.comp]

theorem alookup_map_graph (data : List (String × List String)) (k : String) (vs : List String)
    (hnd : (keys data).Nodup) (hmem : (k, vs) ∈ data) :
    alookup (data.map (fun p => (p.1, p.2.foldl saddElem []))) k =
      some (vs.foldl saddElem []) := by
  apply alookup_of_mem_nodup
  · rw [keys_map_graph]
    exact hnd
  · exact List.mem_map_of_mem _ hmem

/-! ### `_get_in_degree` specification -/

theorem incDegrees_some {d d' : List (String × Int)} {vs : List String}
    (h : incDegrees d vs = some d') :
    keys d' = keys d ∧
    ∀ w, alookup d' w = (alookup d w).map (fun i => i + (vs.count w : Int)) := by
  induction vs generalizing d with
  | nil =>
    simp only [incDegrees] at h
    cases h
    simp
  | cons v rest ih =>
    simp only [incDegrees] at h
    cases hadj : aadjust d v (fun n => n + 1) with
    | none => rw [hadj] at h; exact Option.noConfusion h
    | some d1 =>
      rw [hadj] at h
      obtain ⟨hk, hl⟩ := ih h
      refine ⟨hk.trans (aadjust_keys hadj), fun w => ?_⟩
      rw [hl w]
      by_cases hw : w = v
      · subst hw
        rw [alookup_aadjust_self hadj]
        cases alookup d w <;> simp [List.count_cons]
        ring
      · rw [alookup_aadjust_ne hadj w hw]
        cases alookup d w <;> simp [List.count_cons, hw]

theorem incDegrees_isSome (d : List (String × Int)) (vs : List String) :
    (incDegrees d vs).isSome ↔ ∀ v ∈ vs, v ∈ keys d := by
  induction vs generalizing d with
  | nil => simp [incDegrees]
  | cons v rest ih =>
    simp only [incDegrees]
    cases hadj : aadjust d v (fun n => n + 1) with
    | none =>
      have hv : v ∉ keys d := (aadjust_eq_none _ _ _).mp hadj
      simp [hv]
    | some d1 =>
      have hv : v ∈ keys d := by
        by_contra hv
        rw [(aadjust_eq_none d v _).mpr hv] at hadj
        exact Option.noConfusion hadj
      simp [ih, aadjust_keys hadj, hv]

theorem inDegLoop_some {d d' : List (String × Int)} {g : List (String × List String)}
    (h : inDegLoop d g = some d') :
    keys d' = keys d ∧
    ∀ w, alookup d' w = (alookup d w).map (fun i => i + (gcount g w : Int)) := by
  induction g generalizing d with
  | nil =>
    simp only [inDegLoop] at h
    cases h
    simp [gcount]
  | cons p rest ih =>
    simp only [inDegLoop] at h
    cases hinc : incDegrees d p.2 with
    | none => rw [hinc] at h; exact Option.noConfusion h
    | some d1 =>
      rw [hinc] at h
      obtain ⟨hk1, hl1⟩ := incDegrees_some hinc
      obtain ⟨hk, hl⟩ := ih h
      refine ⟨hk.trans hk1, fun w => ?_⟩
      rw [hl w, hl1 w]
      cases alookup d w <;> simp [gcount]
      ring

theorem inDegLoop_isSome (d : List (String × Int)) (g : List (String × List String)) :
    (inDegLoop d g).isSome ↔ ∀ p ∈ g, ∀ v ∈ p.2, v ∈ keys d := by
  induction g generalizing d with
  | nil => simp [inDegLoop]
  | cons p rest ih =>
    simp only [inDegLoop]
    cases hinc : incDegrees d p.2 with
    | none =>
      have hne := (incDegrees_isSome d p.2).not.mp (by simp [hinc])
      push_neg at hne
      obtain ⟨v, hv1, hv2⟩ := hne
      simp only [Option.isSome_none, Bool.false_eq_true, false_iff]
      push_neg
      exact ⟨p, by simp, v, hv1, hv2⟩
    | some d1 =>
      have hall : ∀ v ∈ p.2, v ∈ keys d := (incDegrees_isSome d p.2).mp (by simp [hinc])
      have hk1 : keys d1 = keys d := (incDegrees_some hinc).1
      rw [ih d1]
      simp only [List.mem_cons, hk1]
      constructor
      · intro hrest p' hp' v hv
        rcases hp' with rfl | hp'
        · exact hall v hv
        · exact hrest p' hp' v hv
      · intro hthis p' hp' v hv
        exact hthis p' (Or.inr hp') v hv

theorem alookup_zero_init (g : List (String × List String)) (w : String) :
    alookup (g.map (fun p => (p.1, (0 : Int)))) w = if w ∈ keys g then some 0 else none := by
  induction g with
  | nil => simp [alookup]
  | cons p rest ih =>
    by_cases hp : p.1 = w
    · simp [alookup, hp]
    · simp only [List.map_cons, alookup, hp, ite_false, ih, keys_cons, List.mem_cons]
      rcases eq_or_ne w p.1 with h | h
      · exact absurd h.symm hp
      · simp [h]

theorem get_in_degree_some {s : DagState} {d : List (String × Int)}
    (h : get_in_degree s = some d) :
    keys d = keys s.graph ∧
    (∀ w ∈ keys s.graph, alookup d w = some (gcount s.graph w : Int)) ∧
    (∀ w, w ∉ keys s.graph → alookup d w = none) := by
  unfold get_in_degree at h
  obtain ⟨hk, hl⟩ := inDegLoop_some h
  have hkeys : keys (s.graph.map (fun p => (p.1, (0 : Int)))) = keys s.graph := by
    simp [keys, Function.comp]
  refine ⟨hk.trans hkeys, fun w hw => ?_, fun w hw => ?_⟩
  · rw [hl w, alookup_zero_init, if_pos hw]
    simp
  · rw [hl w, alookup_zero_init, if_neg hw]
    simp

theorem get_in_degree_isSome (s : DagState) :
    (get_in_degree s).isSome ↔ ∀ p ∈ s.graph, ∀ v ∈ p.2, v ∈ keys s.graph := by
  unfold get_in_degree
  rw [inDegLoop_isSome]
  have hkeys : keys (s.graph.map (fun p => (p.1, (0 : Int)))) = keys s.graph := by
    simp [keys, Function.comp]
  rw [hkeys]

/-! ### Seeding and `_start_traverse` -/

theorem seedQueue_subset (d : List (String × Int)) : ∀ v ∈ seedQueue d, v ∈ keys d := by
  induction d with
  | nil => simp [seedQueue]
  | cons p rest ih =>
    obtain ⟨k, i⟩ := p
    intro v hv
    simp only [seedQueue] at hv
    by_cases hi : i = 0
    · rw [if_pos hi] at hv
      rcases List.mem_cons.mp hv with rfl | hv
      · simp
      · exact List.mem_cons_of_mem _ (ih v hv)
    · rw [if_neg hi] at hv
      exact List.mem_cons_of_mem _ (ih v hv)

theorem seedQueue_nodup (d : List (String × Int)) (hnd : (keys d).Nodup) :
    (seedQueue d).Nodup := by
  induction d with
  | nil => simp [seedQueue]
  | cons p rest ih =>
    obtain ⟨k, i⟩ := p
    simp only [keys_cons, List.nodup_cons] at hnd
    simp only [seedQueue]
    by_cases hi : i = 0
    · rw [if_pos hi]
      exact List.nodup_cons.mpr ⟨fun hmem => hnd.1 (seedQueue_subset rest k hmem), ih hnd.2⟩
    · rw [if_neg hi]
      exact ih hnd.2

theorem mem_seedQueue (d : List (String × Int)) (hnd : (keys d).Nodup) (v : String) :
    v ∈ seedQueue d ↔ alookup d v = some 0 := by
  induction d with
  | nil => simp [seedQueue, alookup]
  | cons p rest ih =>
    obtain ⟨k, i⟩ := p
    simp only [keys_cons, List.nodup_cons] at hnd
    simp only [seedQueue, alookup]
    by_cases hk : k = v
    · subst hk
      simp only [if_pos rfl]
      by_cases hi : i = 0
      · subst hi
        simp
      · rw [if_neg hi]
        constructor
        · intro hmem
          exact absurd (seedQueue_subset rest k hmem) hnd.1
        · intro he
          exact absurd (Option.some.inj he) hi
    · rw [if_neg hk]
      by_cases hi : i = 0
      · rw [if_pos hi]
        rw [List.mem_cons, ih hnd.2]
        simp [Ne.symm hk]
      · rw [if_neg hi]
        exact ih hnd.2

theorem start_traverse_some (s : DagState) (d : List (String × Int))
    (h : get_in_degree s = some d) :
    start_traverse s =
      ({ s with run_in_degree := d, queue := seedQueue d, done := [],
                it_cnt := s.graph.length }, none) := by
  unfold start_traverse
  rw [h]

theorem start_traverse_none (s : DagState) (h : get_in_degree s = none) :
    start_traverse s = (s, some "KeyError") := by
  unfold start_traverse
  rw [h]

/-! ### `node_done` specification -/

theorem doneLoop_spec (vs : List String) (s : DagState)
    (hnd : vs.Nodup) (hsub : ∀ v ∈ vs, v ∈ keys s.run_in_degree) :
    ∃ s', doneLoop s vs = (s', none) ∧
      s'.graph = s.graph ∧ s'.done = s.done ∧ s'.it_cnt = s.it_cnt ∧
      keys s'.run_in_degree = keys s.run_in_degree ∧
      (∀ v ∈ vs, alookup s'.run_in_degree v =
        (alookup s.run_in_degree v).map (fun i => i - 1)) ∧
      (∀ w, w ∉ vs → alookup s'.run_in_degree w = alookup s.run_in_degree w) ∧
      s'.queue = s.queue ++ vs.filter (fun v => alookup s.run_in_degree v == some 1) := by
  induction vs generalizing s with
  | nil => exact ⟨s, rfl, rfl, rfl, rfl, rfl, by simp, fun w _ => rfl, by simp⟩
  | cons v rest ih =>
    simp only [List.nodup_cons] at hnd
    have hv : v ∈ keys s.run_in_degree := hsub v (by simp)
    obtain ⟨i, hi⟩ : ∃ i, alookup s.run_in_degree v = some i := by
      cases hres : alookup s.run_in_degree v with
      | none => exact absurd ((alookup_eq_none _ _).mp hres) (by simp [hv])
      | some j => exact ⟨j, rfl⟩
    obtain ⟨d, hadj⟩ := aadjust_some_of_mem s.run_in_degree v (fun n => n - 1) hv
    have hdv : alookup d v = some (i - 1) := by
      rw [alookup_aadjust_self hadj, hi]
      rfl
    have hdw : ∀ w, w ≠ v → alookup d w = alookup s.run_in_degree w :=
      fun w hw => alookup_aadjust_ne hadj w hw
    have hdk : keys d = keys s.run_in_degree := aadjust_keys hadj
    set s2 : DagState :=
      { s with run_in_degree := d,
               queue := if i = 1 then s.queue ++ [v] else s.queue } with hs2
    have hstep : doneLoop s (v :: rest) = doneLoop s2 rest := by
      simp only [doneLoop, hadj]
      by_cases hione : i = 1
      · rw [if_pos (by rw [hdv, hione]; rfl)]
        simp [hs2, hione]
      · rw [if_neg ?_]
        · simp [hs2, hione]
        · rw [hdv]
          intro hcon
          have hi0 : i - 1 = 0 := Option.some.inj hcon
          exact hione (by omega)
    have hsub2 : ∀ w ∈ rest, w ∈ keys s2.run_in_degree := by
      intro w hw
      show w ∈ keys d
      rw [hdk]
      exact hsub w (by simp [hw])
    obtain ⟨s', hrun, hg, hdn, hit, hk, hin, hout, hq⟩ := ih s2 hnd.2 hsub2
    refine ⟨s', by rw [hstep, hrun], hg, hdn, hit, by rw [hk]; exact hdk, ?_, ?_, ?_⟩
    · intro w hw
      rcases List.mem_cons.mp hw with rfl | hw2
      · rw [hout w hnd.1, hdv, hi]
        rfl
      · rw [hin w hw2, hdw w (fun hc => hnd.1 (hc ▸ hw2))]
    · intro w hw
      simp only [List.mem_cons, not_or] at hw
      rw [hout w hw.2, hdw w hw.1]
    · rw [hq]
      have hfc : rest.filter (fun w => alookup s2.run_in_degree w == some 1) =
          rest.filter (fun w => alookup s.run_in_degree w == some 1) := by
        apply List.filter_congr
        intro w hw
        rw [show s2.run_in_degree = d from rfl, hdw w (fun hc => hnd.1 (hc ▸ hw))]
      rw [hfc]
      show (if i = 1 then s.queue ++ [v] else s.queue) ++ _ = _
      have hvfilter : (v :: rest).filter (fun w => alookup s.run_in_degree w == some 1) =
          (if i = 1 then [v] else []) ++
            rest.filter (fun w => alookup s.run_in_degree w == some 1) := by
        by_cases hione : i = 1
        · rw [List.filter_cons_of_pos (by rw [hi, hione]; rfl)]
          simp [hione]
        · rw [List.filter_cons_of_neg ?_]
          · simp [hione]
          · rw [hi]
            simp only [beq_iff_eq, Option.some.injEq]
            intro hcon
            exact hione (by exact_mod_cast hcon)
      rw [hvfilter]
      by_cases hione : i = 1 <;> simp [hione]

theorem node_done_spec (s : DagState) (x : String) (vs : List String)
    (hx : alookup s.graph x = some vs) (hnd : vs.Nodup)
    (hsub : ∀ v ∈ vs, v ∈ keys s.run_in_degree) :
    ∃ s', node_done s x = (s', none) ∧
      s'.graph = s.graph ∧ s'.done = saddElem s.done x ∧ s'.it_cnt = s.it_cnt ∧
      keys s'.run_in_degree = keys s.run_in_degree ∧
      (∀ v ∈ vs, alookup s'.run_in_degree v =
        (alookup s.run_in_degree v).map (fun i => i - 1)) ∧
      (∀ w, w ∉ vs → alookup s'.run_in_degree w = alookup s.run_in_degree w) ∧
      s'.queue = s.queue ++ vs.filter (fun v => alookup s.run_in_degree v == some 1) := by
  have hs0 : node_done s x = doneLoop { s with done := saddElem s.done x } vs := by
    simp only [node_done]
    rw [show alookup ({ s with done := saddElem s.done x } : DagState).graph x
        = some vs from hx]
  obtain ⟨s', hrun, hg, hdn, hit, hk, hin, hout, hq⟩ :=
    doneLoop_spec vs { s with done := saddElem s.done x } hnd hsub
  exact ⟨s', by rw [hs0, hrun], hg, hdn, hit, hk, hin, hout, hq⟩

/-! ### The Kahn invariant carried by `topological_sort` -/

theorem remCnt_eq_zero_iff (g : List (String × List String)) (acc : List String) (v : String) :
    remCnt g acc v = 0 ↔ ∀ p ∈ g, v ∈ p.2 → p.1 ∈ acc := by
  unfold remCnt
  rw [List.countP_eq_zero]
  constructor
  · intro h p hp hv
    have hnp := h p hp
    simp only [decide_eq_true_eq, not_and, not_not] at hnp
    exact hnp hv
  · intro h p hp
    simp only [decide_eq_true_eq, not_and, not_not]
    exact h p hp

theorem remCnt_pos_iff (g : List (String × List String)) (acc : List String) (v : String) :
    0 < remCnt g acc v ↔ ∃ p ∈ g, v ∈ p.2 ∧ p.1 ∉ acc := by
  unfold remCnt
  rw [List.countP_pos_iff]
  simp

theorem gcount_eq_remCnt_nil (g : List (String × List String)) (v : String)
    (hsuc : ∀ p ∈ g, p.2.Nodup) : gcount g v = remCnt g [] v := by
  induction g with
  | nil => rfl
  | cons p rest ih =>
    have hrest := ih (fun q hq => hsuc q (List.mem_cons_of_mem _ hq))
    unfold gcount remCnt at hrest ⊢
    simp only [List.map_cons, List.sum_cons, List.countP_cons, hrest]
    by_cases hv : v ∈ p.2
    · rw [List.count_eq_one_of_mem (hsuc p (by simp)) hv]
      simp [hv]
      omega
    · rw [List.count_eq_zero_of_not_mem hv]
      simp [hv]

theorem remCnt_snoc (g : List (String × List String)) (acc : List String)
    (n : String) (vs : List String)
    (hnd : (keys g).Nodup) (hmem : (n, vs) ∈ g) (hn : n ∉ acc) (v : String) :
    (v ∈ vs → remCnt g (acc ++ [n]) v + 1 = remCnt g acc v) ∧
    (v ∉ vs → remCnt g (acc ++ [n]) v = remCnt g acc v) := by
  induction g with
  | nil => simp at hmem
  | cons p rest ih =>
    simp only [keys_cons, List.nodup_cons] at hnd
    unfold remCnt
    simp only [List.countP_cons]
    rcases List.mem_cons.mp hmem with heq | hmem2
    · have htail : rest.countP (fun q => decide (v ∈ q.2 ∧ q.1 ∉ acc ++ [n])) =
          rest.countP (fun q => decide (v ∈ q.2 ∧ q.1 ∉ acc)) := by
        apply List.countP_congr
        intro q hq
        have hqn : q.1 ≠ n := by
          intro hc
          apply hnd.1
          have hq1 : q.1 ∈ keys rest := List.mem_map_of_mem Prod.fst hq
          have hp1 : p.1 = n := by rw [← heq]
          rw [hp1, ← hc]
          exact hq1
        simp [List.mem_append, hqn]
      rw [htail]
      have hp2 : p.2 = vs := by rw [← heq]
      have hp1 : p.1 = n := by rw [← heq]
      constructor
      · intro hvvs
        have h1 : (decide (v ∈ p.2 ∧ p.1 ∉ acc ++ [n])) = false := by
          simp [hp1, hp2, List.mem_append]
        have h2 : (decide (v ∈ p.2 ∧ p.1 ∉ acc)) = true := by
          simp [hp1, hp2, hvvs, hn]
        rw [h1, h2]
        simp
      · intro hvvs
        have h1 : (decide (v ∈ p.2 ∧ p.1 ∉ acc ++ [n])) = false := by
          simp [hp2, hvvs]
        have h2 : (decide (v ∈ p.2 ∧ p.1 ∉ acc)) = false := by
          simp [hp2, hvvs]
        rw [h1, h2]
    · have hpn : p.1 ≠ n := by
        intro hc
        apply hnd.1
        have hq1 : n ∈ keys rest := List.mem_map_of_mem Prod.fst hmem2
        rw [hc]
        exact hq1
      have hhead : (decide (v ∈ p.2 ∧ p.1 ∉ acc ++ [n])) =
          (decide (v ∈ p.2 ∧ p.1 ∉ acc)) := by
        simp [List.mem_append, hpn]
      rw [hhead]
      obtain ⟨ih1, ih2⟩ := ih hnd.2 hmem2
      unfold remCnt at ih1 ih2
      constructor
      · intro hvvs
        have := ih1 hvvs
        omega
      · intro hvvs
        have := ih2 hvvs
        omega

theorem kahnInv_init (s : DagState) (d : List (String × Int))
    (hnd : (keys s.graph).Nodup) (hsuc : ∀ p ∈ s.graph, p.2.Nodup)
    (hd : get_in_degree s = some d) :
    KahnInv s.graph
      { s with run_in_degree := d, queue := seedQueue d, done := [],
               it_cnt := s.graph.length } [] := by
  obtain ⟨hk, hval, _⟩ := get_in_degree_some hd
  have hseed_mem : ∀ v, v ∈ seedQueue d ↔ alookup d v = some 0 :=
    mem_seedQueue d (hk ▸ hnd)
  have hrem : ∀ v ∈ keys s.graph, alookup d v = some (remCnt s.graph [] v : Int) := by
    intro v hv
    rw [hval v hv, gcount_eq_remCnt_nil s.graph v hsuc]
  refine ⟨rfl, by simp, hk, by simp, by simp, ?_, ?_, by simp, hrem, ?_, ?_⟩
  · intro n hn
    exact hk ▸ seedQueue_subset d n hn
  · exact seedQueue_nodup d (hk ▸ hnd)
  · intro v hv
    show remCnt s.graph [] v = 0 ↔ v ∈ ([] : List String) ∨ v ∈ seedQueue d
    rw [hseed_mem v]
    have hlv := hrem v hv
    constructor
    · intro h0
      right
      rw [hlv, h0]
      rfl
    · rintro (hmem | hs)
      · simp at hmem
      · rw [hlv] at hs
        have hs2 := Option.some.inj hs
        exact_mod_cast hs2
  · intro u vs hmem v hv hvacc
    simp at hvacc

theorem exists_min_rank (l : List String) (f : String → Nat) (h : l ≠ []) :
    ∃ a ∈ l, ∀ b ∈ l, f a ≤ f b := by
  induction l with
  | nil => exact absurd rfl h
  | cons x rest ih =>
    cases rest with
    | nil =>
      refine ⟨x, by simp, ?_⟩
      intro b hb
      rcases List.mem_cons.mp hb with rfl | hb2
      · exact le_refl _
      · simp at hb2
    | cons y t =>
      obtain ⟨a, ha, hmin⟩ := ih (by simp)
      by_cases hx : f x ≤ f a
      · refine ⟨x, by simp, ?_⟩
        intro b hb
        rcases List.mem_cons.mp hb with rfl | hb2
        · exact le_refl _
        · exact hx.trans (hmin b hb2)
      · refine ⟨a, List.mem_cons_of_mem _ ha, ?_⟩
        intro b hb
        rcases List.mem_cons.mp hb with rfl | hb2
        · omega
        · exact hmin b hb2

theorem kahnInv_progress (g : List (String × List String)) (s : DagState) (acc : List String)
    (inv : KahnInv g s acc) (hnd : (keys g).Nodup)
    (rank : String → Nat) (hrank : ∀ p ∈ g, ∀ v ∈ p.2, rank p.1 < rank v)
    (hlen : acc.length < g.length) : s.queue ≠ [] := by
  intro hq
  have hex : ∃ v ∈ keys g, v ∉ acc := by
    by_contra hall
    push_neg at hall
    have hsub : keys g ⊆ acc := fun v hv => hall v hv
    have hsp := (List.subperm_of_subset hnd hsub).length_le
    have hkl : (keys g).length = g.length := by simp [keys]
    omega
  have hUne : (keys g).filter (fun v => decide (v ∉ acc)) ≠ [] := by
    obtain ⟨v, hv1, hv2⟩ := hex
    exact List.ne_nil_of_mem (List.mem_filter.mpr ⟨hv1, by simp [hv2]⟩)
  obtain ⟨v0, hv0U, hmin⟩ :=
    exists_min_rank ((keys g).filter (fun v => decide (v ∉ acc))) rank hUne
  have hv0g : v0 ∈ keys g := (List.mem_filter.mp hv0U).1
  have hv0acc : v0 ∉ acc := by
    have hdec := (List.mem_filter.mp hv0U).2
    simpa using hdec
  have hrc : remCnt g acc v0 ≠ 0 := by
    intro h0
    rcases (inv.zero_iff v0 hv0g).mp h0 with h | h
    · exact hv0acc h
    · rw [hq] at h
      simp at h
  obtain ⟨p, hp, hpv, hpacc⟩ := (remCnt_pos_iff g acc v0).mp (Nat.pos_of_ne_zero hrc)
  have hp1g : p.1 ∈ keys g := List.mem_map_of_mem Prod.fst hp
  have hp1U : p.1 ∈ (keys g).filter (fun v => decide (v ∉ acc)) :=
    List.mem_filter.mpr ⟨hp1g, by simp [hpacc]⟩
  have hlt : rank p.1 < rank v0 := hrank p hp v0 hpv
  have hle : rank v0 ≤ rank p.1 := hmin p.1 hp1U
  omega

theorem kahnInv_step (g : List (String × List String)) (s : DagState) (acc : List String)
    (n : String) (rest : List String)
    (inv : KahnInv g s acc)
    (hnd : (keys g).Nodup) (hsuc : ∀ p ∈ g, p.2.Nodup)
    (hcl : ∀ p ∈ g, ∀ v ∈ p.2, v ∈ keys g)
    (rank : String → Nat) (hrank : ∀ p ∈ g, ∀ v ∈ p.2, rank p.1 < rank v)
    (hq : s.queue = n :: rest) (hpos : 0 < s.it_cnt) :
    ∃ s3, node_done { s with it_cnt := s.it_cnt - 1, queue := rest } n = (s3, none) ∧
      KahnInv g s3 (acc ++ [n]) := by
  have hng : n ∈ keys g := inv.q_sub n (by rw [hq]; simp)
  have hnacc : n ∉ acc := inv.q_disj n (by rw [hq]; simp)
  have hnrest : n ∉ rest := by
    have hqnd := inv.q_nodup
    rw [hq] at hqnd
    exact (List.nodup_cons.mp hqnd).1
  obtain ⟨vs, hvs⟩ : ∃ vs, alookup g n = some vs := by
    cases hres : alookup g n with
    | none => exact absurd ((alookup_eq_none _ _).mp hres) (by simp [hng])
    | some vs => exact ⟨vs, rfl⟩
  have hmem : (n, vs) ∈ g := alookup_mem g n vs hvs
  have hvsnd : vs.Nodup := hsuc (n, vs) hmem
  have hnrem : remCnt g acc n = 0 := (inv.zero_iff n hng).mpr (Or.inr (by rw [hq]; simp))
  have hnvs : n ∉ vs := fun hc => lt_irrefl _ (hrank (n, vs) hmem n hc)
  have hvs1 : alookup ({ s with it_cnt := s.it_cnt - 1, queue := rest } : DagState).graph n
      = some vs := by
    show alookup s.graph n = some vs
    rw [inv.graph_eq]
    exact hvs
  have hsub1 : ∀ v ∈ vs,
      v ∈ keys ({ s with it_cnt := s.it_cnt - 1, queue := rest } : DagState).run_in_degree := by
    intro v hv
    show v ∈ keys s.run_in_degree
    rw [inv.keys_deg]
    exact hcl (n, vs) hmem v hv
  obtain ⟨s3, hrun, hg3, hdn3, hit3, hk3, hin3, hout3, hq3⟩ :=
    node_done_spec { s with it_cnt := s.it_cnt - 1, queue := rest } n vs hvs1 hvsnd hsub1
  have hrid1 : ({ s with it_cnt := s.it_cnt - 1, queue := rest } : DagState).run_in_degree
      = s.run_in_degree := rfl
  rw [hrid1] at hin3 hout3 hk3
  have hq3' : s3.queue = rest ++ vs.filter (fun v => alookup s.run_in_degree v == some 1) := by
    rw [hq3]
  have hEmem : ∀ x, x ∈ vs.filter (fun v => alookup s.run_in_degree v == some 1) ↔
      (x ∈ vs ∧ remCnt g acc x = 1) := by
    intro x
    rw [List.mem_filter]
    constructor
    · rintro ⟨hxvs, hbeq⟩
      refine ⟨hxvs, ?_⟩
      have hxk : x ∈ keys g := hcl (n, vs) hmem x hxvs
      rw [inv.deg x hxk] at hbeq
      have hxe := eq_of_beq hbeq
      have := Option.some.inj hxe
      exact_mod_cast this
    · rintro ⟨hxvs, hone⟩
      refine ⟨hxvs, ?_⟩
      have hxk : x ∈ keys g := hcl (n, vs) hmem x hxvs
      rw [inv.deg x hxk, hone]
      rfl
  refine ⟨s3, hrun, ?_, ?_, ?_, ?_, ?_, ?_, ?_, ?_, ?_, ?_, ?_⟩
  · rw [hg3]
    exact inv.graph_eq
  · rw [hit3]
    show s.it_cnt - 1 + (acc ++ [n]).length = g.length
    have he := inv.itcnt
    simp only [List.length_append, List.length_singleton]
    omega
  · rw [hk3]
    exact inv.keys_deg
  · intro x hx
    rcases List.mem_append.mp hx with hxa | hxn
    · exact inv.acc_sub x hxa
    · simp only [List.mem_singleton] at hxn
      exact hxn ▸ hng
  · exact List.Nodup.append inv.acc_nodup (List.nodup_singleton n)
      (fun x hx hx2 => hnacc (by simp only [List.mem_singleton] at hx2; exact hx2 ▸ hx))
  · intro x hx
    rw [hq3'] at hx
    rcases List.mem_append.mp hx with hxr | hxE
    · exact inv.q_sub x (by rw [hq]; exact List.mem_cons_of_mem _ hxr)
    · exact hcl (n, vs) hmem x ((hEmem x).mp hxE).1
  · rw [hq3']
    refine List.Nodup.append ?_ (List.Nodup.filter _ hvsnd) ?_
    · have hqnd := inv.q_nodup
      rw [hq] at hqnd
      exact (List.nodup_cons.mp hqnd).2
    · intro x hxr hxE
      obtain ⟨hxvs, hone⟩ := (hEmem x).mp hxE
      have hxk : x ∈ keys g := hcl (n, vs) hmem x hxvs
      have hx0 : remCnt g acc x = 0 :=
        (inv.zero_iff x hxk).mpr (Or.inr (by rw [hq]; exact List.mem_cons_of_mem _ hxr))
      omega
  · intro x hx
    rw [hq3'] at hx
    rcases List.mem_append.mp hx with hxr | hxE
    · intro hxacc
      rcases List.mem_append.mp hxacc with hxa | hxn
      · exact inv.q_disj x (by rw [hq]; exact List.mem_cons_of_mem _ hxr) hxa
      · simp only [List.mem_singleton] at hxn
        exact hnrest (hxn ▸ hxr)
    · obtain ⟨hxvs, hone⟩ := (hEmem x).mp hxE
      have hxk : x ∈ keys g := hcl (n, vs) hmem x hxvs
      intro hxacc
      rcases List.mem_append.mp hxacc with hxa | hxn
      · have hx0 : remCnt g acc x = 0 := (inv.zero_iff x hxk).mpr (Or.inl hxa)
        omega
      · simp only [List.mem_singleton] at hxn
        rw [hxn] at hone
        omega
  · intro v hv
    by_cases hvvs : v ∈ vs
    · rw [hin3 v hvvs, inv.deg v hv]
      have heq := (remCnt_snoc g acc n vs hnd hmem hnacc v).1 hvvs
      simp only [Option.map_some']
      congr 1
      omega
    · rw [hout3 v hvvs, inv.deg v hv]
      congr 1
      have heq := (remCnt_snoc g acc n vs hnd hmem hnacc v).2 hvvs
      omega
  · intro v hv
    rcases eq_or_ne v n with rfl | hvn
    · have hrm : remCnt g (acc ++ [v]) v = remCnt g acc v :=
        (remCnt_snoc g acc v vs hnd hmem hnacc v).2 hnvs
      apply iff_of_true
      · rw [hrm]
        exact hnrem
      · exact Or.inl (by simp)
    · by_cases hvvs : v ∈ vs
      · have h1 := (remCnt_snoc g acc n vs hnd hmem hnacc v).1 hvvs
        constructor
        · intro h0
          right
          rw [hq3']
          refine List.mem_append.mpr (Or.inr ?_)
          exact (hEmem v).mpr ⟨hvvs, by omega⟩
        · rintro (hacc2 | hque2)
          · rcases List.mem_append.mp hacc2 with hxa | hxn
            · have hx0 : remCnt g acc v = 0 := (inv.zero_iff v hv).mpr (Or.inl hxa)
              omega
            · simp only [List.mem_singleton] at hxn
              exact absurd hxn hvn
          · rw [hq3'] at hque2
            rcases List.mem_append.mp hque2 with hxr | hxE
            · have hx0 : remCnt g acc v = 0 :=
                (inv.zero_iff v hv).mpr (Or.inr (by rw [hq]; exact List.mem_cons_of_mem _ hxr))
              omega
            · obtain ⟨_, hone⟩ := (hEmem v).mp hxE
              omega
      · have h2 := (remCnt_snoc g acc n vs hnd hmem hnacc v).2 hvvs
        have hrhs : (v ∈ acc ++ [n] ∨ v ∈ s3.queue) ↔ (v ∈ acc ∨ v ∈ s.queue) := by
          rw [hq3', hq]
          constructor
          · rintro (hacc2 | hque2)
            · rcases List.mem_append.mp hacc2 with hxa | hxn
              · exact Or.inl hxa
              · simp only [List.mem_singleton] at hxn
                exact absurd hxn hvn
            · rcases List.mem_append.mp hque2 with hxr | hxE
              · exact Or.inr (List.mem_cons_of_mem _ hxr)
              · exact absurd ((hEmem v).mp hxE).1 hvvs
          · rintro (hacc2 | hque2)
            · exact Or.inl (List.mem_append.mpr (Or.inl hacc2))
            · rcases List.mem_cons.mp hque2 with rfl | hxr
              · exact absurd rfl hvn
              · exact Or.inr (List.mem_append.mpr (Or.inl hxr))
        rw [h2, hrhs]
        exact inv.zero_iff v hv
  · intro u us humem v hv hvacc2
    rcases List.mem_append.mp hvacc2 with hva | hvn2
    · obtain ⟨a1, a2, hsplit, hu⟩ := inv.topo u us humem v hv hva
      exact ⟨a1, a2 ++ [n], by rw [hsplit]; simp, hu⟩
    · simp only [List.mem_singleton] at hvn2
      subst hvn2
      have hu_acc : u ∈ acc :=
        (remCnt_eq_zero_iff g acc v).mp hnrem (u, us) humem hv
      exact ⟨acc, [], by simp, hu_acc⟩

theorem sortLoop_kahn (g : List (String × List String))
    (hnd : (keys g).Nodup) (hsuc : ∀ p ∈ g, p.2.Nodup)
    (hcl : ∀ p ∈ g, ∀ v ∈ p.2, v ∈ keys g)
    (rank : String → Nat) (hrank : ∀ p ∈ g, ∀ v ∈ p.2, rank p.1 < rank v) :
    ∀ fuel (s : DagState) (acc : List String), KahnInv g s acc → fuel = s.it_cnt + 1 →
      ∃ s' accT, sortLoop fuel s acc = (s', accT, none) ∧ KahnInv g s' accT ∧
        s'.it_cnt = 0 := by
  intro fuel
  induction fuel with
  | zero =>
    intro s acc _ hf
    omega
  | succ f ih =>
    intro s acc inv hf
    rcases Nat.eq_zero_or_pos s.it_cnt with h0 | hpos
    · refine ⟨s, acc, ?_, inv, h0⟩
      simp only [sortLoop]
      rw [dagNext_stop s h0]
    · have hlen : acc.length < g.length := by
        have he := inv.itcnt
        omega
      have hqne : s.queue ≠ [] := kahnInv_progress g s acc inv hnd rank hrank hlen
      cases hq : s.queue with
      | nil => exact absurd hq hqne
      | cons n rest =>
        obtain ⟨s3, hrun, inv3⟩ :=
          kahnInv_step g s acc n rest inv hnd hsuc hcl rank hrank hq hpos
        have hf3 : f = s3.it_cnt + 1 := by
          have e1 := inv.itcnt
          have e2 := inv3.itcnt
          simp only [List.length_append, List.length_singleton] at e2
          omega
        obtain ⟨s', accT, hrun2, inv2, hcnt2⟩ := ih s3 (acc ++ [n]) inv3 hf3
        refine ⟨s', accT, ?_, inv2, hcnt2⟩
        simp only [sortLoop]
        rw [dagNext_yield s n rest hpos hq]
        show (match node_done { s with it_cnt := s.it_cnt - 1, queue := rest } n with
          | (s2, none) => sortLoop f s2 (acc ++ [n])
          | (s2, some e) => (s2, acc ++ [n], some e)) = (s', accT, none)
        rw [hrun]
        exact hrun2

theorem nodup_mem_iff_of_length (g : List (String × List String)) (accT : List String)
    (hsub : ∀ n ∈ accT, n ∈ keys g)
    (hndT : accT.Nodup) (hlen : accT.length = g.length) : ∀ v, v ∈ accT ↔ v ∈ keys g := by
  have hsp : List.Subperm accT (keys g) := List.subperm_of_subset hndT (fun v hv => hsub v hv)
  have hkl : (keys g).length = g.length := by simp [keys]
  have hperm : accT.Perm (keys g) := hsp.perm_of_length_le (by omega)
  exact fun v => hperm.mem_iff

/-! ### Walk-trace invariant: each node is yielded at most once -/

theorem traceInv_doneLoop (vs : List String) (s : DagState) (Y : List String)
    (inv : TraceInv s Y) : TraceInv (doneLoop s vs).1 Y := by
  induction vs generalizing s with
  | nil => exact inv
  | cons v rest ih =>
    simp only [doneLoop]
    cases hadj : aadjust s.run_in_degree v (fun n => n - 1) with
    | none => exact inv
    | some d =>
      simp only
      have hvk : v ∈ keys s.run_in_degree := by
        by_contra hv
        rw [(aadjust_eq_none _ _ _).mpr hv] at hadj
        exact Option.noConfusion hadj
      obtain ⟨i0, hi0⟩ : ∃ i0, alookup s.run_in_degree v = some i0 := by
        cases hres : alookup s.run_in_degree v with
        | none => exact absurd ((alookup_eq_none _ _).mp hres) (by simp [hvk])
        | some j => exact ⟨j, rfl⟩
      have hdv : alookup d v = some (i0 - 1) := by
        rw [alookup_aadjust_self hadj, hi0]
        rfl
      have hdw : ∀ w, w ≠ v → alookup d w = alookup s.run_in_degree w :=
        fun w hw => alookup_aadjust_ne hadj w hw
      have hdk : keys d = keys s.run_in_degree := aadjust_keys hadj
      apply ih
      by_cases h0 : alookup d v = some 0
      · rw [if_pos h0]
        have hi01 : i0 = 1 := by
          rw [hdv] at h0
          have := Option.some.inj h0
          omega
        have hvcnt : s.queue.count v + Y.count v = 0 := by
          rcases Nat.lt_or_ge (s.queue.count v + Y.count v) 1 with h | h
          · omega
          · have hone : s.queue.count v + Y.count v = 1 := le_antisymm (inv.once v) h
            have := inv.negOnce v i0 hone hi0
            omega
        refine ⟨hdk.trans inv.degKeys, ?_, inv.yKeys, ?_, ?_⟩
        · intro w hw
          rcases List.mem_append.mp hw with hw1 | hw2
          · exact inv.qKeys w hw1
          · simp only [List.mem_singleton] at hw2
            subst hw2
            rw [← inv.degKeys]
            exact hvk
        · intro w
          rcases eq_or_ne w v with rfl | hwv
          · simp only [List.count_append]
            simp [List.count_singleton]
            omega
          · simp only [List.count_append]
            have hc0 : [v].count w = 0 := by
              apply List.count_eq_zero_of_not_mem
              simp [hwv]
            rw [hc0]
            have := inv.once w
            omega
        · intro w i hsum hlw
          rcases eq_or_ne w v with rfl | hwv
          · rw [h0] at hlw
            have := Option.some.inj hlw
            omega
          · have hcnt : [v].count w = 0 := by
              apply List.count_eq_zero_of_not_mem
              simp [hwv]
            rw [List.count_append, hcnt] at hsum
            rw [hdw w hwv] at hlw
            exact inv.negOnce w i (by omega) hlw
      · rw [if_neg h0]
        refine ⟨hdk.trans inv.degKeys, inv.qKeys, inv.yKeys, inv.once, ?_⟩
        intro w i hsum hlw
        rcases eq_or_ne w v with rfl | hwv
        · rw [hdv] at hlw
          have hii : i = i0 - 1 := (Option.some.inj hlw).symm
          have := inv.negOnce w i0 hsum hi0
          omega
        · rw [hdw w hwv] at hlw
          exact inv.negOnce w i hsum hlw

theorem traceInv_node_done (s : DagState) (Y : List String) (x : String)
    (inv : TraceInv s Y) : TraceInv (node_done s x).1 Y := by
  simp only [node_done]
  cases alookup s.graph x with
  | none => exact ⟨inv.degKeys, inv.qKeys, inv.yKeys, inv.once, inv.negOnce⟩
  | some vs =>
    simp only
    exact traceInv_doneLoop vs _ Y
      ⟨inv.degKeys, inv.qKeys, inv.yKeys, inv.once, inv.negOnce⟩

theorem traceInv_runTrace (t : List Op) (s : DagState) (Y : List String)
    (inv : TraceInv s Y) : TraceInv (runTrace s t).1 ((runTrace s t).2 ++ Y) := by
  induction t generalizing s Y with
  | nil => simpa [runTrace] using inv
  | cons op rest ih =>
    cases op with
    | done n =>
      simp only [runTrace]
      exact ih _ _ (traceInv_node_done s Y n inv)
    | step =>
      simp only [runTrace]
      rcases Nat.eq_zero_or_pos s.it_cnt with h0 | hpos
      · rw [dagNext_stop s h0]
        exact ih s Y inv
      · cases hq : s.queue with
        | nil =>
          rw [dagNext_empty s hpos hq]
          exact ih _ _ ⟨inv.degKeys, inv.qKeys, inv.yKeys, inv.once, inv.negOnce⟩
        | cons n q =>
          rw [dagNext_yield s n q hpos hq]
          have hinv1 : TraceInv { s with it_cnt := s.it_cnt - 1, queue := q } (n :: Y) := by
            refine ⟨inv.degKeys, ?_, ?_, ?_, ?_⟩
            · intro v hv
              exact inv.qKeys v (by rw [hq]; exact List.mem_cons_of_mem _ hv)
            · intro v hv
              rcases List.mem_cons.mp hv with rfl | hv2
              · exact inv.qKeys v (by rw [hq]; simp)
              · exact inv.yKeys v hv2
            · intro v
              have := inv.once v
              rw [hq] at this
              simp only [List.count_cons] at this ⊢
              show q.count v + _ ≤ 1
              split at this <;> rename_i hnv <;> simp [hnv] <;> omega
            · intro v i hsum hl
              apply inv.negOnce v i ?_ hl
              rw [hq]
              simp only [List.count_cons] at hsum ⊢
              show q.count v + (if n == v then 1 else 0) + Y.count v = 1
              revert hsum
              split <;> intro hsum <;> omega
          have hstep := ih _ _ hinv1
          refine ⟨hstep.degKeys, hstep.qKeys, ?_, ?_, ?_⟩
          · intro v hv
            apply hstep.yKeys v
            revert hv
            simp only [List.cons_append, List.mem_cons, List.mem_append]
            tauto
          · intro v
            have := hstep.once v
            simp only [List.count_append, List.count_cons] at this ⊢
            omega
          · intro v i hsum hl
            apply hstep.negOnce v i ?_ hl
            revert hsum
            simp only [List.count_append, List.count_cons]
            intro hsum
            omega

theorem traceInv_start (s : DagState) (d : List (String × Int))
    (hnd : (keys s.graph).Nodup) (hd : get_in_degree s = some d) :
    TraceInv { s with run_in_degree := d, queue := seedQueue d, done := [],
                      it_cnt := s.graph.length } [] := by
  obtain ⟨hk, _, _⟩ := get_in_degree_some hd
  have hseednd : (seedQueue d).Nodup := seedQueue_nodup d (hk ▸ hnd)
  refine ⟨hk, ?_, by simp, ?_, ?_⟩
  · intro v hv
    exact hk ▸ seedQueue_subset d v hv
  · intro v
    have := List.nodup_iff_count_le_one.mp hseednd v
    simpa using this
  · intro v i hsum hl
    have hvmem : v ∈ seedQueue d := by
      by_contra hvm
      rw [List.count_eq_zero_of_not_mem hvm] at hsum
      simp at hsum
    have h0 : alookup d v = some 0 := (mem_seedQueue d (hk ▸ hnd) v).mp hvmem
    have hl2 : alookup d v = some i := hl
    rw [h0] at hl2
    have hi := Option.some.inj hl2
    omega

/-! ### Claim theorems -/

/-- Claim C4: the step (pull) operation raises the scheduling-timeout error
exactly when `_it_cnt` is still positive (fewer than N nodes yielded) and the
ready queue is empty at the step — e.g. for a cyclic graph or a missing
completion report — and in that situation it neither yields a node nor
signals `StopIteration`. -/
theorem step_timeout_iff (s : DagState) :
    ((dagNext s).2 = StepOut.timeout ↔ (0 < s.it_cnt ∧ s.queue = [])) ∧
    (0 < s.it_cnt → s.queue = [] →
      dagNext s = ({ s with it_cnt := s.it_cnt - 1 }, StepOut.timeout)) := by
  constructor
  · constructor
    · intro ht
      rcases Nat.eq_zero_or_pos s.it_cnt with h0 | hpos
      · rw [dagNext_stop s h0] at ht
        exact absurd ht (by simp)
      · cases hq : s.queue with
        | nil => exact ⟨hpos, rfl⟩
        | cons n q =>
          rw [dagNext_yield s n q hpos hq] at ht
          exact absurd ht (by simp)
    · rintro ⟨hpos, hq⟩
      rw [dagNext_empty s hpos hq]
  · intro hpos hq
    exact dagNext_empty s hpos hq

/-- Witness for C4: on the cyclic graph `{a: [b], b: [a]}`, after
`_start_traverse` both nodes have in-degree 1, the queue is empty,
`_it_cnt = 2 > 0`, and the first pull times out. -/
theorem step_timeout_iff_witness :
    0 < (start_traverse (from_dict initDag [("a", ["b"]), ("b", ["a"])]).1).1.it_cnt ∧
    (start_traverse (from_dict initDag [("a", ["b"]), ("b", ["a"])]).1).1.queue = [] ∧
    dagNext (start_traverse (from_dict initDag [("a", ["b"]), ("b", ["a"])]).1).1 =
      ({ (start_traverse (from_dict initDag [("a", ["b"]), ("b", ["a"])]).1).1 with
          it_cnt := (start_traverse
            (from_dict initDag [("a", ["b"]), ("b", ["a"])]).1).1.it_cnt - 1 },
        StepOut.timeout) :=
  ⟨by decide, by decide,
    (step_timeout_iff (start_traverse (from_dict initDag [("a", ["b"]), ("b", ["a"])]).1).1).2
      (by decide) (by decide)⟩

/-- Claim C5, counterexample: `add_edge` on an empty graph raises `KeyError`
instead of succeeding, and even when the source node exists, the target `v`
is not auto-created as a node. -/
theorem add_edge_missing_endpoint_refutes :
    add_edge initDag "a" "b" = (initDag, some "KeyError") ∧
    (add_edge (add_node initDag "a") "a" "b").1.graph = [("a", ["b"])] ∧
    "b" ∉ keys (add_edge (add_node initDag "a") "a" "b").1.graph := by
  refine ⟨by decide, by decide, by decide⟩

/-- Claim C5 (amended): `add_edge(u, v)` raises `KeyError` when `u` is not a
node; when `u` is a node it succeeds, adding `v` to `u`'s successor set and
leaving the node set (and all other successor sets) unchanged — in
particular `v` is not auto-created as a node. -/
theorem add_edge_spec (s : DagState) (u v : String) :
    (u ∉ keys s.graph → add_edge s u v = (s, some "KeyError")) ∧
    (u ∈ keys s.graph → ∃ g', add_edge s u v = ({ s with graph := g' }, none) ∧
      keys g' = keys s.graph ∧
      alookup g' u = (alookup s.graph u).map (fun vs => saddElem vs v) ∧
      ∀ w, w ≠ u → alookup g' w = alookup s.graph w) :=
  ⟨add_edge_of_not_mem s u v, add_edge_of_mem s u v⟩

/-- Witness for C5: both branches of `add_edge_spec` at concrete inputs. -/
theorem add_edge_spec_witness :
    add_edge initDag "a" "b" = (initDag, some "KeyError") ∧
    (∃ g', add_edge (add_node initDag "a") "a" "b" =
        ({ add_node initDag "a" with graph := g' }, none) ∧
      keys g' = keys (add_node initDag "a").graph ∧
      alookup g' "a" = (alookup (add_node initDag "a").graph "a").map
        (fun vs => saddElem vs "b") ∧
      ∀ w, w ≠ "a" → alookup g' w = alookup (add_node initDag "a").graph w) :=
  ⟨(add_edge_spec initDag "a" "b").1 (by decide),
   (add_edge_spec (add_node initDag "a") "a" "b").2 (by decide)⟩

/-- Claim C6, counterexample: the spec's concrete adjacency mapping
`{a:[b,d,f], b:[c,d], c:[d], d:[e], e:[], f:[e]}` declares 6 nodes, not 7;
`topological_sort` on it returns the 6-element order `[a, b, f, c, d, e]`,
so it does not return 7 identifiers. -/
theorem demo_sort_not_seven :
    (topological_sort (from_dict initDag demoGraph).1).2.1 = ["a", "b", "f", "c", "d", "e"] ∧
    (topological_sort (from_dict initDag demoGraph).1).2.1.length ≠ 7 := by
  refine ⟨by decide, by decide⟩

/-- Claim C6 (amended): on the graph loaded from
`{a:[b,d,f], b:[c,d], c:[d], d:[e], e:[], f:[e]}` (6 nodes),
`topological_sort` returns all 6 identifiers, each exactly once, in an order
with a before b, d, f; b before c, d; c before d; d before e; f before e;
and e last. -/
theorem demo_sort_order :
    (topological_sort (from_dict initDag demoGraph).1).2.2 = none ∧
    (topological_sort (from_dict initDag demoGraph).1).2.1.length = 6 ∧
    (topological_sort (from_dict initDag demoGraph).1).2.1.Nodup ∧
    (∀ x ∈ ["a", "b", "c", "d", "e", "f"],
      x ∈ (topological_sort (from_dict initDag demoGraph).1).2.1) ∧
    (∀ uv ∈ [("a", "b"), ("a", "d"), ("a", "f"), ("b", "c"), ("b", "d"),
             ("c", "d"), ("d", "e"), ("f", "e")],
      (topological_sort (from_dict initDag demoGraph).1).2.1.indexOf uv.1 <
        (topological_sort (from_dict initDag demoGraph).1).2.1.indexOf uv.2) ∧
    (topological_sort (from_dict initDag demoGraph).1).2.1.getLast? = some "e" := by
  refine ⟨by decide, by decide, by decide, by decide, by decide, by decide⟩

/-- Claim C8: insertion is idempotent — `add_node` on a present node is the
identity (its successor set survives untouched), and `add_edge` on a present
edge returns the state unchanged (so every successor-set cardinality is
unchanged). -/
theorem insertion_idempotent :
    (∀ (s : DagState) (n : String), n ∈ keys s.graph → add_node s n = s) ∧
    (∀ (s : DagState) (u v : String) (vs : List String),
      alookup s.graph u = some vs → v ∈ vs → add_edge s u v = (s, none)) :=
  ⟨add_node_of_mem, fun s u v vs h1 h2 => add_edge_of_mem_succ s u v vs h1 h2⟩

/-- Witness for C8: re-adding node `a` and edge `(a, b)` to the graph
`{a: {b}}` changes nothing. -/
theorem insertion_idempotent_witness :
    add_node (add_edge (add_node initDag "a") "a" "b").1 "a" =
      (add_edge (add_node initDag "a") "a" "b").1 ∧
    add_edge (add_edge (add_node initDag "a") "a" "b").1 "a" "b" =
      ((add_edge (add_node initDag "a") "a" "b").1, none) :=
  ⟨insertion_idempotent.1 (add_edge (add_node initDag "a") "a" "b").1 "a" (by decide),
   insertion_idempotent.2 (add_edge (add_node initDag "a") "a" "b").1 "a" "b" ["b"]
     (by decide) (by decide)⟩

/-- Claim C10: no walk-phase operation mutates the adjacency dict —
`_start_traverse`, `__next__`, `node_done`, `topological_sort`, and any
sequence of walk calls leave `_graph` (node set and successor sets) exactly
as it was; only the per-walk state changes. -/
theorem walk_preserves_graph (s : DagState) (n : String) (t : List Op) :
    (start_traverse s).1.graph = s.graph ∧
    (dagNext s).1.graph = s.graph ∧
    (node_done s n).1.graph = s.graph ∧
    (topological_sort s).1.graph = s.graph ∧
    (runTrace s t).1.graph = s.graph :=
  ⟨start_traverse_graph s, (dagNext_graph s).1, (node_done_fields s n).1,
   topological_sort_graph s, runTrace_graph s t⟩

/-- Claim C1, counterexample: `add_node`/`add_edge`/`from_dict` can build an
acyclic graph whose edge target is not a key (e.g. `from_dict {a: [b]}`:
one node, edge `(a, b)`, ranked by `a ↦ 0, _ ↦ 1`); on it
`topological_sort` raises `KeyError` out of `_get_in_degree` and yields no
identifiers, instead of returning a 1-element order. -/
theorem topological_sort_dangling_refutes :
    (from_dict initDag [("a", ["b"])]).2 = none ∧
    (from_dict initDag [("a", ["b"])]).1.graph.length = 1 ∧
    (∀ p ∈ (from_dict initDag [("a", ["b"])]).1.graph, ∀ v ∈ p.2,
      (if p.1 = "a" then 0 else 1) < (if v = "a" then (0 : Nat) else 1)) ∧
    (topological_sort (from_dict initDag [("a", ["b"])]).1).2.1 = [] ∧
    (topological_sort (from_dict initDag [("a", ["b"])]).1).2.2 = some "KeyError" := by
  refine ⟨by decide, by decide, by decide, by decide, by decide⟩

/-- Claim C1 (amended): for every acyclic graph all of whose edge targets
exist as nodes (acyclicity certified by a rank function), with node keys
nodup and successor sets duplicate-free — as `add_node`/`add_edge`/
`from_dict` produce — `topological_sort` succeeds and returns exactly K
identifiers, each node exactly once, and every edge source strictly
precedes its target in the returned order. -/
theorem topological_sort_correct (s : DagState) (rank : String → Nat)
    (hnd : (keys s.graph).Nodup) (hsuc : ∀ p ∈ s.graph, p.2.Nodup)
    (hcl : ∀ p ∈ s.graph, ∀ v ∈ p.2, v ∈ keys s.graph)
    (hrank : ∀ p ∈ s.graph, ∀ v ∈ p.2, rank p.1 < rank v) :
    (topological_sort s).2.2 = none ∧
    (topological_sort s).2.1.length = s.graph.length ∧
    (topological_sort s).2.1.Nodup ∧
    (∀ v, v ∈ (topological_sort s).2.1 ↔ v ∈ keys s.graph) ∧
    (∀ p ∈ s.graph, ∀ v ∈ p.2, listBefore (topological_sort s).2.1 p.1 v) := by
  obtain ⟨d, hd⟩ : ∃ d, get_in_degree s = some d := by
    have hs := (get_in_degree_isSome s).mpr hcl
    cases hres : get_in_degree s with
    | none => rw [hres] at hs; exact absurd hs (by simp)
    | some d => exact ⟨d, rfl⟩
  have hts : topological_sort s = sortLoop (s.graph.length + 1)
      { s with run_in_degree := d, queue := seedQueue d, done := [],
               it_cnt := s.graph.length } [] := by
    unfold topological_sort
    rw [start_traverse_some s d hd]
  have inv0 := kahnInv_init s d hnd hsuc hd
  obtain ⟨s', accT, hrun, invT, h0⟩ :=
    sortLoop_kahn s.graph hnd hsuc hcl rank hrank (s.graph.length + 1)
      { s with run_in_degree := d, queue := seedQueue d, done := [],
               it_cnt := s.graph.length } [] inv0 rfl
  rw [hts, hrun]
  have hlen : accT.length = s.graph.length := by
    have he := invT.itcnt
    omega
  have hmem := nodup_mem_iff_of_length s.graph accT invT.acc_sub invT.acc_nodup hlen
  refine ⟨rfl, hlen, invT.acc_nodup, hmem, ?_⟩
  intro p hp v hv
  have hvk : v ∈ keys s.graph := hcl p hp v hv
  have hvacc : v ∈ accT := (hmem v).mpr hvk
  obtain ⟨a1, a2, hsplit, hu⟩ := invT.topo p.1 p.2 (by simpa using hp) v hv hvacc
  obtain ⟨b1, b2, hb⟩ := List.append_of_mem hu
  exact ⟨b1, b2, a2, by rw [hsplit, hb]; simp⟩

/-- Witness for C1 (amended): the closed acyclic graph `{a: [b], b: []}`
with rank `a ↦ 0, _ ↦ 1`; `topological_sort` on it returns both nodes with
a before b. -/
theorem topological_sort_correct_witness :
    (topological_sort (from_dict initDag [("a", ["b"]), ("b", [])]).1).2.2 = none ∧
    (topological_sort (from_dict initDag [("a", ["b"]), ("b", [])]).1).2.1.length =
      (from_dict initDag [("a", ["b"]), ("b", [])]).1.graph.length ∧
    (topological_sort (from_dict initDag [("a", ["b"]), ("b", [])]).1).2.1.Nodup ∧
    (∀ v, v ∈ (topological_sort (from_dict initDag [("a", ["b"]), ("b", [])]).1).2.1 ↔
      v ∈ keys (from_dict initDag [("a", ["b"]), ("b", [])]).1.graph) ∧
    (∀ p ∈ (from_dict initDag [("a", ["b"]), ("b", [])]).1.graph, ∀ v ∈ p.2,
      listBefore (topological_sort (from_dict initDag [("a", ["b"]), ("b", [])]).1).2.1
        p.1 v) :=
  topological_sort_correct (from_dict initDag [("a", ["b"]), ("b", [])]).1
    (fun x => if x = "a" then 0 else 1) (by decide) (by decide) (by decide) (by decide)

/-- Claim C7, counterexample: `from_dict {a: [b]}` succeeds and leaves the
graph with single node `a` whose successor set holds `b`, but `b` is not
created as a node, and the in-degree computation of a subsequent walk is
undefined on the edge target (`KeyError`). -/
theorem from_dict_dangling_refutes :
    (from_dict initDag [("a", ["b"])]).2 = none ∧
    (from_dict initDag [("a", ["b"])]).1.graph = [("a", ["b"])] ∧
    "b" ∉ keys (from_dict initDag [("a", ["b"])]).1.graph ∧
    get_in_degree (from_dict initDag [("a", ["b"])]).1 = none := by
  refine ⟨by decide, by decide, by decide, by decide⟩

/-- Claim C7 (amended): `from_dict` resets the graph and performs
`add_node k` plus `add_edge k dep` for every declared pair, never failing;
afterwards the nodes are exactly the declared keys and each key's successor
set holds exactly its declared successors — but a declared successor is a
node only if it is itself a key, and the walk's in-degree computation is
defined exactly when every declared successor is also a key. -/
theorem from_dict_builds_declared (s : DagState) (data : List (String × List String))
    (hnd : (keys data).Nodup) :
    ∃ s', from_dict s data = (s', none) ∧
      keys s'.graph = keys data ∧
      (∀ k vs, (k, vs) ∈ data → ∃ l, alookup s'.graph k = some l ∧ l.Nodup ∧
        (∀ x, x ∈ l ↔ x ∈ vs)) ∧
      ((get_in_degree s').isSome ↔ ∀ p ∈ data, ∀ v ∈ p.2, v ∈ keys data) := by
  refine ⟨{ s with graph := data.map (fun p => (p.1, p.2.foldl saddElem [])) },
    from_dict_spec s data hnd, keys_map_graph data, ?_, ?_⟩
  · intro k vs hmem
    refine ⟨vs.foldl saddElem [], alookup_map_graph data k vs hnd hmem,
      foldl_saddElem_nodup vs [] (by simp), ?_⟩
    intro x
    rw [mem_foldl_saddElem]
    simp
  · rw [get_in_degree_isSome]
    show (∀ p ∈ data.map (fun p => (p.1, p.2.foldl saddElem [])), ∀ v ∈ p.2,
        v ∈ keys (data.map (fun p => (p.1, p.2.foldl saddElem [])))) ↔ _
    rw [keys_map_graph data]
    constructor
    · intro h q hq v hv
      exact h _ (List.mem_map_of_mem _ hq) v ((mem_foldl_saddElem q.2 [] v).mpr (Or.inr hv))
    · intro h p hp v hv
      obtain ⟨q, hq, rfl⟩ := List.mem_map.mp hp
      have hvq : v ∈ q.2 := by
        have hm := (mem_foldl_saddElem q.2 [] v).mp hv
        simpa using hm
      exact h q hq v hvq

/-- Witness for C7 (amended): the declared mapping `{a: [b], b: []}`. -/
theorem from_dict_builds_declared_witness :
    ∃ s', from_dict initDag [("a", ["b"]), ("b", [])] = (s', none) ∧
      keys s'.graph = keys [("a", ["b"]), ("b", [])] ∧
      (∀ k vs, (k, vs) ∈ [("a", ["b"]), ("b", [])] →
        ∃ l, alookup s'.graph k = some l ∧ l.Nodup ∧ (∀ x, x ∈ l ↔ x ∈ vs)) ∧
      ((get_in_degree s').isSome ↔
        ∀ p ∈ [("a", ["b"]), ("b", [])], ∀ v ∈ p.2, v ∈ keys [("a", ["b"]), ("b", [])]) :=
  from_dict_builds_declared initDag [("a", ["b"]), ("b", [])] (by decide)

/-- Claim C2: `node_done(x)` adds `x` to the completed set, decrements the
in-degree of each direct successor by exactly one, and enqueues exactly the
successors whose stored in-degree reaches exactly zero; consequently a node
with stored in-degree 2 and two prerequisites is, under either order of the
two completion calls, not enqueued by the first call and enqueued exactly
once by the second. -/
theorem node_done_effects :
    (∀ (s : DagState) (x : String) (vs : List String),
      alookup s.graph x = some vs → vs.Nodup → (∀ v ∈ vs, v ∈ keys s.run_in_degree) →
      ∃ s', node_done s x = (s', none) ∧ s'.done = saddElem s.done x ∧
        (∀ v ∈ vs, alookup s'.run_in_degree v =
          (alookup s.run_in_degree v).map (fun i => i - 1)) ∧
        (∀ w, w ∉ vs → alookup s'.run_in_degree w = alookup s.run_in_degree w) ∧
        s'.queue = s.queue ++ vs.filter (fun v => alookup s.run_in_degree v == some 1)) ∧
    (∀ (s : DagState) (p1 p2 t : String) (vs1 vs2 : List String),
      alookup s.graph p1 = some vs1 → alookup s.graph p2 = some vs2 →
      vs1.Nodup → vs2.Nodup →
      (∀ v ∈ vs1, v ∈ keys s.run_in_degree) → (∀ v ∈ vs2, v ∈ keys s.run_in_degree) →
      t ∈ vs1 → t ∈ vs2 → alookup s.run_in_degree t = some 2 →
      ∃ s1 s2, node_done s p1 = (s1, none) ∧ node_done s1 p2 = (s2, none) ∧
        s1.queue.count t = s.queue.count t ∧
        s2.queue.count t = s.queue.count t + 1) := by
  constructor
  · intro s x vs hx hnd hsub
    obtain ⟨s', hrun, _, hdn, _, _, hin, hout, hq⟩ := node_done_spec s x vs hx hnd hsub
    exact ⟨s', hrun, hdn, hin, hout, hq⟩
  · intro s p1 p2 t vs1 vs2 h1 h2 hnd1 hnd2 hsub1 hsub2 ht1 ht2 hdeg
    obtain ⟨s1, hrun1, hg1, _, _, hk1, hin1, hout1, hq1⟩ :=
      node_done_spec s p1 vs1 h1 hnd1 hsub1
    have hdeg1 : alookup s1.run_in_degree t = some 1 := by
      rw [hin1 t ht1, hdeg]
      rfl
    have hcnt1 : s1.queue.count t = s.queue.count t := by
      rw [hq1, List.count_append]
      have ht0 : (vs1.filter (fun v => alookup s.run_in_degree v == some 1)).count t = 0 := by
        apply List.count_eq_zero_of_not_mem
        intro hmem
        have hbeq := (List.mem_filter.mp hmem).2
        rw [hdeg] at hbeq
        have hbad := eq_of_beq hbeq
        simp at hbad
      rw [ht0]
      omega
    have h2' : alookup s1.graph p2 = some vs2 := by
      rw [hg1]
      exact h2
    have hsub2' : ∀ v ∈ vs2, v ∈ keys s1.run_in_degree := by
      intro v hv
      rw [hk1]
      exact hsub2 v hv
    obtain ⟨s2, hrun2, _, _, _, _, _, _, hq2⟩ :=
      node_done_spec s1 p2 vs2 h2' hnd2 hsub2'
    refine ⟨s1, s2, hrun1, hrun2, hcnt1, ?_⟩
    rw [hq2, List.count_append, hcnt1]
    have htf : (vs2.filter (fun v => alookup s1.run_in_degree v == some 1)).count t =
        vs2.count t := by
      apply List.count_filter
      rw [hdeg1]
      rfl
    rw [htf, List.count_eq_one_of_mem hnd2 ht2]

/-- Witness for C2: graph `{p: [t], q: [t], t: []}` with `t` at stored
in-degree 2; completing `p` then `q` enqueues `t` exactly once, on the
second call. -/
theorem node_done_effects_witness :
    (∃ s', node_done ⟨[("p", ["t"]), ("q", ["t"]), ("t", [])],
        [("p", 0), ("q", 0), ("t", 2)], [], [], 3⟩ "p" = (s', none) ∧
      s'.done = saddElem [] "p" ∧
      (∀ v ∈ ["t"], alookup s'.run_in_degree v =
        (alookup [("p", (0 : Int)), ("q", 0), ("t", 2)] v).map (fun i => i - 1)) ∧
      (∀ w, w ∉ ["t"] → alookup s'.run_in_degree w =
        alookup [("p", (0 : Int)), ("q", 0), ("t", 2)] w) ∧
      s'.queue = [] ++ ["t"].filter
        (fun v => alookup [("p", (0 : Int)), ("q", 0), ("t", 2)] v == some 1)) ∧
    (∃ s1 s2, node_done ⟨[("p", ["t"]), ("q", ["t"]), ("t", [])],
        [("p", 0), ("q", 0), ("t", 2)], [], [], 3⟩ "p" = (s1, none) ∧
      node_done s1 "q" = (s2, none) ∧
      s1.queue.count "t" = List.count "t" [] ∧
      s2.queue.count "t" = List.count "t" [] + 1) :=
  ⟨node_done_effects.1 ⟨[("p", ["t"]), ("q", ["t"]), ("t", [])],
      [("p", 0), ("q", 0), ("t", 2)], [], [], 3⟩ "p" ["t"]
      (by decide) (by decide) (by decide),
   node_done_effects.2 ⟨[("p", ["t"]), ("q", ["t"]), ("t", [])],
      [("p", 0), ("q", 0), ("t", 2)], [], [], 3⟩ "p" "q" "t" ["t"] ["t"]
      (by decide) (by decide) (by decide) (by decide) (by decide) (by decide)
      (by decide) (by decide) (by decide)⟩

/-- Claim C3: once a walk has started on a graph with N nodes, any sequence
of pulls and completion reports yields at most N items in total, every
yielded item is a node, no node is yielded twice, once N items have been
yielded the next pull signals `StopIteration`, and on the empty graph the
very first pull signals `StopIteration` without waiting. -/
theorem walk_yield_bounds (s s1 : DagState)
    (hnd : (keys s.graph).Nodup)
    (hstart : start_traverse s = (s1, none)) :
    (∀ t : List Op, (runTrace s1 t).2.length ≤ s.graph.length) ∧
    (∀ t : List Op, ∀ v, (runTrace s1 t).2.count v ≤ 1) ∧
    (∀ t : List Op, ∀ v, v ∈ (runTrace s1 t).2 → v ∈ keys s.graph) ∧
    (∀ t : List Op, (runTrace s1 t).2.length = s.graph.length →
      (dagNext (runTrace s1 t).1).2 = StepOut.stop) ∧
    (s.graph = [] → dagNext s1 = (s1, StepOut.stop)) := by
  obtain ⟨d, hd, hs1⟩ : ∃ d, get_in_degree s = some d ∧ s1 = { s with run_in_degree := d, queue := seedQueue d, done := [], it_cnt := s.graph.length } := by
    cases hres : get_in_degree s with
    | none =>
      rw [start_traverse_none s hres] at hstart
      have hsnd := congrArg Prod.snd hstart
      simp at hsnd
    | some e =>
      rw [start_traverse_some s e hres] at hstart
      have hfst := congrArg Prod.fst hstart
      exact ⟨e, rfl, hfst.symm⟩
  have hcnt1 : s1.it_cnt = s.graph.length := by rw [hs1]
  have hgr1 : s1.graph = s.graph := by rw [hs1]
  have hinv : TraceInv s1 [] := by
    rw [hs1]
    exact traceInv_start s d hnd hd
  refine ⟨?_, ?_, ?_, ?_, ?_⟩
  · intro t
    have hle := runTrace_length s1 t
    rw [hcnt1] at hle
    omega
  · intro t v
    have hrun := traceInv_runTrace t s1 [] hinv
    have honce := hrun.once v
    simp only [List.append_nil] at honce
    omega
  · intro t v hv
    have hrun := traceInv_runTrace t s1 [] hinv
    have hk := hrun.yKeys v (by simpa using hv)
    rw [runTrace_graph s1 t, hgr1] at hk
    exact hk
  · intro t hlen
    have hle := runTrace_length s1 t
    rw [hcnt1, hlen] at hle
    have h0 : (runTrace s1 t).1.it_cnt = 0 := by omega
    rw [dagNext_stop _ h0]
  · intro hgr
    apply dagNext_stop
    rw [hcnt1, hgr]
    rfl

/-- Witness for C3: the one-node graph `{a: []}` and the call sequence
pull, report a, pull: exactly one yield, then `StopIteration`; plus the
empty graph, whose first pull stops immediately. -/
theorem walk_yield_bounds_witness :
    (runTrace ⟨[("a", [])], [("a", 0)], ["a"], [], 1⟩
      [Op.step, Op.done "a", Op.step]).2.length ≤
      (from_dict initDag [("a", [])]).1.graph.length ∧
    (runTrace ⟨[("a", [])], [("a", 0)], ["a"], [], 1⟩
      [Op.step, Op.done "a", Op.step]).2.count "a" ≤ 1 ∧
    (dagNext (runTrace ⟨[("a", [])], [("a", 0)], ["a"], [], 1⟩
      [Op.step, Op.done "a", Op.step]).1).2 = StepOut.stop ∧
    dagNext (⟨[], [], [], [], 0⟩ : DagState) = (⟨[], [], [], [], 0⟩, StepOut.stop) :=
  ⟨(walk_yield_bounds (from_dict initDag [("a", [])]).1
      ⟨[("a", [])], [("a", 0)], ["a"], [], 1⟩ (by decide) (by decide)).1
      [Op.step, Op.done "a", Op.step],
   (walk_yield_bounds (from_dict initDag [("a", [])]).1
      ⟨[("a", [])], [("a", 0)], ["a"], [], 1⟩ (by decide) (by decide)).2.1
      [Op.step, Op.done "a", Op.step] "a",
   (walk_yield_bounds (from_dict initDag [("a", [])]).1
      ⟨[("a", [])], [("a", 0)], ["a"], [], 1⟩ (by decide) (by decide)).2.2.2.1
      [Op.step, Op.done "a", Op.step] (by decide),
   (walk_yield_bounds initDag ⟨[], [], [], [], 0⟩ (by decide) (by decide)).2.2.2.2
      (by decide)⟩

end TinyDAG
